import Mathlib

/-!
Verification of the warpforge plot/formula execution core
(crates `warpforge-executors`, `warpforge-api`).

The Rust sources are shallowly embedded: `indexmap::IndexMap` and
`indexmap::IndexSet` become association lists / duplicate-free lists that
preserve insertion order, with `insert` replacing in place and `remove`
implemented as `swap_remove` (as in the `indexmap` crate); fallible code
returns a result type with an explicit `panic` outcome that models
`todo!()` aborts; file-system writes become a path-to-content map.
-/

namespace Warpforge

/-- Single-quote character as a string (used to build error messages,
which quote step names and ports). -/
def sq : String := "\x27"

/-! ## Insertion-ordered maps and sets (embedding of indexmap) -/

/-- Association list embedding of `indexmap::IndexMap` with `String` keys. -/
abbrev IMap (α : Type) : Type := List (String × α)

/-- Lookup of the first (with unique keys: the only) entry for a key. -/
def imFind? {α : Type} : IMap α → String → Option α
  | [], _ => none
  | e :: rest, k => if e.1 = k then some e.2 else imFind? rest k

/-- Keys of the map, in insertion order. -/
def imKeys {α : Type} (m : IMap α) : List String := m.map Prod.fst

/-- Containment test, `IndexMap::contains_key`. -/
def imContains {α : Type} (m : IMap α) (k : String) : Bool := (imFind? m k).isSome

/-- Embedding of `IndexMap::insert`: replace the value in place when the key
is present, otherwise append the new entry at the end. -/
def imInsert {α : Type} : IMap α → String → α → IMap α
  | [], k, v => [(k, v)]
  | e :: rest, k, v => if e.1 = k then (k, v) :: rest else e :: imInsert rest k v

/-- Embedding of `IndexSet` elements: a duplicate-free list in insertion
order; `insert` appends when the element is absent. -/
def isetInsert (s : List String) (x : String) : List String :=
  if x ∈ s then s else s ++ [x]

/-- Replace the first element equal to `x` by `b` (helper for swap removal). -/
def replaceFirst : List String → String → String → List String
  | [], _, _ => []
  | y :: rest, x, b => if y = x then b :: rest else y :: replaceFirst rest x b

/-- Embedding of `IndexSet::remove` (a swap remove in the indexmap crate):
the removed slot is filled with the last element.  Returns whether the
element was present, together with the updated set. -/
def isetSwapRemove (s : List String) (x : String) : Bool × List String :=
  if x ∈ s then
    match s.getLast? with
    | none => (true, s)
    | some b => (true, (replaceFirst s x b).dropLast)
  else (false, s)

/-- Replace the first entry whose key is `k` by the entry `b`. -/
def imReplaceFirstKey {α : Type} : IMap α → String → (String × α) → IMap α
  | [], _, _ => []
  | e :: rest, k, b => if e.1 = k then b :: rest else e :: imReplaceFirstKey rest k b

/-- Embedding of `IndexMap::remove` (a swap remove in the indexmap crate). -/
def imSwapRemoveKey {α : Type} (m : IMap α) (k : String) : IMap α :=
  if imContains m k then
    match m.getLast? with
    | none => m
    | some b => (imReplaceFirstKey m k b).dropLast
  else m

/-! ## Data model (warpforge-api) -/

/-- Embedding of `warpforge_api::formula::Image`. -/
structure Image where
  reference : String
  readonly : Bool
deriving DecidableEq, Repr

/-- Embedding of `warpforge_api::formula::Mount`. -/
inductive Mount where
  | readOnly (host : String)
  | readWrite (host : String)
  | overlay (host : String)
deriving DecidableEq, Repr

/-- Embedding of `warpforge_api::formula::FormulaInput`. -/
inductive FormulaInput where
  | ware (id : String)
  | mount (m : Mount)
  | literal (s : String)
deriving DecidableEq, Repr

/-- Embedding of `warpforge_api::formula::GatherDirective` (`Packtype` is a
plain string tag). -/
structure GatherDirective where
  «from» : String
  packtype : Option String
deriving DecidableEq, Repr

/-- Embedding of `warpforge_api::formula::Action` with its payload structs
`ActionExecute` and `ActionScript` inlined. -/
inductive Action where
  | echo
  | execute (command : List String) (network : Option Bool)
  | script (interpreter : String) (contents : List String) (network : Option Bool)
deriving DecidableEq, Repr

/-- Embedding of `warpforge_api::formula::Formula`; `SandboxPort` and
`LocalLabel` are plain strings. -/
structure Formula where
  image : Image
  inputs : IMap FormulaInput
  action : Action
  outputs : IMap GatherDirective
deriving DecidableEq, Repr

/-- Embedding of `warpforge_api::plot::Pipe`. -/
structure Pipe where
  step_name : String
  label : String
deriving DecidableEq, Repr

/-- Embedding of `warpforge_api::plot::PlotInput` (the `CatalogRef` and
`Ingest` payloads are never inspected by the executor, which hits `todo!()`
on them, so they are left out). -/
inductive PlotInput where
  | mount (m : Mount)
  | literal (s : String)
  | ware (id : String)
  | pipe (p : Pipe)
  | catalogRef
  | ingest
deriving DecidableEq, Repr

/-- Embedding of `warpforge_api::plot::Protoformula`. -/
structure Protoformula where
  image : Option Image
  inputs : IMap PlotInput
  action : Action
  outputs : IMap GatherDirective
deriving DecidableEq, Repr

/-- Embedding of `warpforge_api::plot::Step`.  The sub-plot payload of
`Step::Plot` is never inspected by the executor core (both mentions hit
`todo!()`), so the constructor is modelled without the payload. -/
inductive Step where
  | plot
  | protoformula (pf : Protoformula)
deriving DecidableEq, Repr

/-- Embedding of `warpforge_api::plot::Plot`; plot outputs are
`PlotOutput::Pipe` values keyed by `LocalLabel`. -/
structure Plot where
  image : Option Image
  steps : IMap Step
  outputs : IMap Pipe
deriving DecidableEq, Repr

/-! ## Errors and results (warpforge-executors) -/

/-- Embedding of the `warpforge_executors::Error` variants used by the
covered core.  Causes are modelled by their display string. -/
inductive Error where
  | systemSetupCauseless (msg : String)
  | systemSetupError (msg : String) (cause : String)
  | systemRuntimeError (msg : String) (cause : String)
  | catchall (msg : String) (cause : String)
deriving DecidableEq, Repr

/-- Result of embedded fallible code: `ok` / `err` mirror
`warpforge_executors::Result`, while `panic` models a `todo!()` abort
(which unwinds instead of returning an error). -/
inductive Res (α : Type) where
  | ok (val : α)
  | err (e : Error)
  | panic
deriving DecidableEq, Repr

/-- True exactly on the `err` outcome (used to distinguish a returned
error from a `todo!()` panic). -/
def Res.isErr {α : Type} : Res α → Bool
  | .err _ => true
  | _ => false

/-! ## Execution artifacts -/

/-- Modelled from the spec: `MountSpec` (section 3.5) lives in
`warpforge-executors/src/lib.rs`, which is not among the provided sources;
it carries a host source path, a sandbox target path, a readonly flag and a
mount kind. -/
structure MountSpec where
  host_source : String
  sandbox_target : String
  readonly : Bool
  kind : String
deriving DecidableEq, Repr

/-- Modelled from the spec: `MountSpec::new_bind(source, target, readonly)`
(sections 3.5 and 4.2) is defined in `warpforge-executors/src/lib.rs`, not
among the provided sources.  The third argument is the readonly flag: the
call sites in `Formula::run` pass `true` for `Mount::ReadOnly` and `false`
for `Mount::ReadWrite`, matching the spec table in section 4.2. -/
def MountSpec.new_bind (source target : String) (readonly : Bool) : MountSpec :=
  { host_source := source, sandbox_target := target, readonly := readonly, kind := "bind" }

/-! ## Formula lowering (warpforge-executors/src/formula.rs) -/

/-- `Formula::CONTAINER_BASE_PATH`. -/
def CONTAINER_BASE_PATH : String := "/.warpforge.container"

/-- `Formula::container_script_path()`: `CONTAINER_BASE_PATH` joined with
`"script"`. -/
def container_script_path : String := CONTAINER_BASE_PATH ++ "/script"

/-- Embedding of the exit-code handling at the end of `run_formula`
(formula.rs): `Some(0)` succeeds, everything else maps to
`SystemRuntimeError` whose cause displays the numeric code, or the literal
`"None"` when no exit code was received. -/
def run_formula_exit (exit_code : Option Int) : Res Unit :=
  match exit_code with
  | some 0 => .ok ()
  | _ =>
    .err (.systemRuntimeError "container terminated non-zero exit code"
      (match exit_code with
       | none => "None"
       | some code => toString code))

/-- Loop body of `Formula::setup_script` for one enumerated script line:
create `script_dir/entry-<n>` containing the line plus a newline, then
append the sourcing line for that entry to `script_dir/run` (the file
system is modelled as a path-to-content map, `File::create` makes the path
empty and `writeln!` appends a line plus a newline). -/
def setupScriptStep (scriptDir : String) (files : IMap String) (e : Nat × String) : IMap String :=
  let entryFileName := "entry-" ++ toString e.1
  let files := imInsert files (scriptDir ++ "/" ++ entryFileName) (e.2 ++ "\n")
  imInsert files (scriptDir ++ "/run")
    ((imFind? files (scriptDir ++ "/run")).getD ""
      ++ ". " ++ container_script_path ++ "/" ++ entryFileName ++ "\n")

/-- Embedding of `Formula::setup_script`: fail when the script directory
already exists (`scriptDirExists`), create `script_dir/run`, fold the
enumerated contents through `setupScriptStep`, register the script bind
mount, and return the command vector together with the updated mounts map
and the files written under the script directory. -/
def setup_script (ersatzDir : String) (scriptDirExists : Bool)
    (interpreter : String) (contents : List String)
    (mounts : IMap MountSpec) : Res (List String × IMap MountSpec × IMap String) :=
  if scriptDirExists then
    .err (.systemSetupCauseless "script directory already existed when trying to setup script")
  else
    let scriptDir := ersatzDir ++ "/script"
    let files : IMap String := imInsert [] (scriptDir ++ "/run") ""
    let files := contents.enum.foldl (setupScriptStep scriptDir) files
    let mounts := imInsert mounts container_script_path
      (MountSpec.new_bind scriptDir container_script_path false)
    .ok ([interpreter, container_script_path ++ "/run"], mounts, files)

/-- Outcome of lowering one formula input pair in the loop body of
`Formula::run`: an environment insertion, a mount insertion, a returned
error, or a `todo!()` panic. -/
inductive PairOut where
  | env (name value : String)
  | mnt (key : String) (spec : MountSpec)
  | err (e : Error)
  | panic
deriving DecidableEq, Repr

/-- True exactly on the `err` outcome. -/
def PairOut.isErr : PairOut → Bool
  | .err _ => true
  | _ => false

/-- True exactly when lowering the pair succeeded (an environment entry or
a mount was produced). -/
def PairOut.isOk : PairOut → Bool
  | .env _ _ => true
  | .mnt _ _ => true
  | _ => false

/-- Embedding of the loop body handling one `(port, input)` pair in
`Formula::run`, matching on the character list of the port.
`port.get(..1)` yields `Some("$")` / `Some("/")` exactly when the first
character is that character, and anything else (including the empty port
and a non-ASCII first character) falls to the invalid-input arm;
`port.get(1..)` of a `$`-port is its remainder after the first character,
and the emptiness check on it mirrors the source comment about
`"$".get(1..) == Some("")`. -/
def lowerInput (port : String) (input : FormulaInput) : PairOut :=
  match port.data with
  | '$' :: rest =>
    if rest.isEmpty then
      .err (.systemSetupCauseless "environment variable with empty name")
    else
      match input with
      | .literal v => .env (String.mk rest) v
      | _ => .err (.systemSetupCauseless
          ("value of environment variable " ++ sq ++ String.mk rest ++ sq
            ++ " has to be literal"))
  | '/' :: _ =>
    match input with
    | .ware _ => .panic
    | .mount (.readOnly host) => .mnt port (MountSpec.new_bind host port true)
    | .mount (.readWrite host) => .mnt port (MountSpec.new_bind host port false)
    | .mount (.overlay _) => .panic
    | .literal _ => .err (.systemSetupCauseless
        ("formula input " ++ sq ++ port ++ sq ++ ": " ++ sq ++ "literal" ++ sq
          ++ " not supported, use " ++ sq ++ "ware" ++ sq ++ " or " ++ sq ++ "mount" ++ sq))
  | _ =>
    .err (.systemSetupCauseless ("invalid formula input " ++ sq ++ port ++ sq))

/-- Embedding of the input loop of `Formula::run`: fold `lowerInput` over
the inputs in insertion order, accumulating the mounts and environment
maps and stopping at the first error or panic. -/
def lowerInputs : List (String × FormulaInput) → IMap MountSpec → IMap String →
    Res (IMap MountSpec × IMap String)
  | [], mounts, environment => .ok (mounts, environment)
  | (port, input) :: rest, mounts, environment =>
    match lowerInput port input with
    | .env n v => lowerInputs rest mounts (imInsert environment n v)
    | .mnt k spec => lowerInputs rest (imInsert mounts k spec) environment
    | .err e => .err e
    | .panic => .panic

/-- Embedding of the pure lowering part of `Formula::run` (input handling
followed by action lowering, formula.rs lines 155-221): produces the
mounts map, the environment map, the command vector, and the script files
written on disk (empty for non-script actions).  The subsequent container
identity, image unpack and executor invocation are external effects and
are not part of lowering. -/
def formulaRunLower (ersatzDir : String) (scriptDirExists : Bool) (f : Formula) :
    Res (IMap MountSpec × IMap String × List String × IMap String) :=
  match lowerInputs f.inputs [] [] with
  | .err e => .err e
  | .panic => .panic
  | .ok (mounts, environment) =>
    match f.action with
    | .echo => .ok (mounts, environment, ["echo", "what is the \"Echo\" Action for?"], [])
    | .execute command _ => .ok (mounts, environment, command, [])
    | .script interpreter contents _ =>
      match setup_script ersatzDir scriptDirExists interpreter contents mounts with
      | .err e => .err e
      | .panic => .panic
      | .ok (command, mounts, files) => .ok (mounts, environment, command, files)

/-! ## Plot graph (warpforge-executors/src/plot.rs) -/

/-- Embedding of `PlotGraph`: nodes, parent adjacency and child adjacency,
all insertion ordered. -/
structure PlotGraph where
  nodes : IMap Step
  parents : IMap (List String)
  children : IMap (List String)
deriving DecidableEq, Repr

/-- Embedding of `IndexMap::entry(k).or_insert_with(IndexSet::new).insert(x)`:
create an empty set for the key when absent, then insert the element. -/
def imEntryInsert : IMap (List String) → String → String → IMap (List String)
  | [], k, x => [(k, isetInsert [] x)]
  | e :: rest, k, x =>
    if e.1 = k then (k, isetInsert e.2 x) :: rest else e :: imEntryInsert rest k x

/-- Processing of one input of step `name` in the inner loop of
`PlotGraph::new`: a pipe input with a non-empty step name records the edge
symmetrically in the parents and children maps; everything else is
skipped. -/
def plotGraphEdge (name : String) (pc : IMap (List String) × IMap (List String))
    (inp : String × PlotInput) : IMap (List String) × IMap (List String) :=
  match inp.2 with
  | .pipe pr =>
    if pr.step_name = "" then pc
    else (imEntryInsert pc.1 name pr.step_name, imEntryInsert pc.2 pr.step_name name)
  | _ => pc

/-- Processing of one `(name, step)` entry in the loop of `PlotGraph::new`:
record the node, then (for a protoformula) record one parent/child edge per
pipe input with a non-empty step name.  A sub-plot step hits `todo!()`,
modelled as `none`. -/
def plotGraphStep (st : IMap Step × IMap (List String) × IMap (List String))
    (e : String × Step) : Option (IMap Step × IMap (List String) × IMap (List String)) :=
  let nodes := imInsert st.1 e.1 e.2
  match e.2 with
  | .plot => none
  | .protoformula pf =>
    let pc := pf.inputs.foldl (plotGraphEdge e.1) (st.2.1, st.2.2)
    some (nodes, pc.1, pc.2)

/-- Embedding of `PlotGraph::new`: fold over the steps in insertion order;
`none` models the `todo!()` abort on a sub-plot step. -/
def plotGraphNew (p : Plot) : Option PlotGraph :=
  (p.steps.foldlM plotGraphStep ([], [], [])).map (fun s => ⟨s.1, s.2.1, s.2.2⟩)

/-- Message built by `validate_dependencies_exist` for an unknown step. -/
def depsMsg (origin : List String) (name : String) : String :=
  "invalid plot: step(s) " ++ sq ++ String.intercalate (sq ++ ", " ++ sq) origin ++ sq
    ++ " reference(s) unknown step " ++ sq ++ name ++ sq

/-- Loop of `validate_dependencies_exist`: walk the keys of `children` in
insertion order and fail on the first key that is not a node, naming it and
the steps that reference it (joined by a quoted comma separator). -/
def validateDepsGo (nodes : IMap Step) (children : IMap (List String)) :
    List (String × List String) → Res Unit
  | [] => .ok ()
  | e :: rest =>
    if imContains nodes e.1 then validateDepsGo nodes children rest
    else .err (.systemSetupCauseless (depsMsg ((imFind? children e.1).getD []) e.1))

/-- Embedding of `PlotGraph::validate_dependencies_exist`. -/
def validate_dependencies_exist (g : PlotGraph) : Res Unit :=
  validateDepsGo g.nodes g.children g.children

/-- Message built by `validate_no_cycles` on failure. -/
def cycleMsg (names : List String) : String :=
  "invalid plot: the step(s) " ++ sq ++ String.intercalate (sq ++ ", " ++ sq) names ++ sq
    ++ " contain(s) cycle(s)"

/-- Cycle report of `validate_no_cycles`: the keys of the remaining
`parents` map whose parent set is still non-empty, in map order. -/
def cyclesReport (parents : IMap (List String)) : List String :=
  (parents.filter (fun e => !e.2.isEmpty)).map Prod.fst

/-- Relaxation of one child after node `node` completed, shared shape of
`validate_no_cycles` and `PlotExecutor::run`: look up the child in the
mutable parents map (`parents[child]` panics when absent, modelled as
`none`), swap-remove the completed parent, and when the set just became
empty optionally drop the entry (`dropEntry`, done by `validate_no_cycles`
but not by the executor) and push the child onto the ready stack. -/
def relaxChild (dropEntry : Bool) (node : String)
    (st : IMap (List String) × List String) (child : String) :
    Option (IMap (List String) × List String) :=
  match imFind? st.1 child with
  | none => none
  | some childParents =>
    let r := isetSwapRemove childParents node
    let parents := imInsert st.1 child r.2
    if r.1 && r.2.isEmpty then
      some (if dropEntry then imSwapRemoveKey parents child else parents, st.2 ++ [child])
    else
      some (parents, st.2)

/-- Relax every child of `node` (in the insertion order of its child set;
steps without a children entry relax nothing). -/
def relaxChildren (dropEntry : Bool) (children : IMap (List String)) (node : String)
    (parents : IMap (List String)) (stack : List String) :
    Option (IMap (List String) × List String) :=
  ((imFind? children node).getD []).foldlM (relaxChild dropEntry node) (parents, stack)

/-- Outcome of the Kahn loop of `validate_no_cycles`. -/
inductive KahnOut where
  | done (order : List String)
  | cycles (names : List String)
  | panic
deriving DecidableEq, Repr

/-- Loop of `validate_no_cycles`: while the order is not complete, pop the
most recently pushed ready node (`Vec::pop` takes the last element), append
it to the order and relax its children; an empty stack yields the cycle
report.  The loop adds a node to the order on every iteration, so fuel
`nodesLen` suffices; exhausted fuel is modelled as `panic` and proved
unreachable. -/
def kahnLoop (nodesLen : Nat) (children : IMap (List String)) :
    Nat → List String → IMap (List String) → List String → KahnOut
  | fuel, order, parents, stack =>
    if nodesLen ≤ order.length then .done order
    else
      match fuel with
      | 0 => .panic
      | fuel + 1 =>
        match stack.getLast? with
        | none => .cycles (cyclesReport parents)
        | some node =>
          match relaxChildren true children node parents stack.dropLast with
          | none => .panic
          | some (parents, stack) => kahnLoop nodesLen children fuel (order ++ [node]) parents stack

/-- Initial ready stack, shared by `validate_no_cycles` and
`PlotExecutor::run`: every node whose parent set is empty or absent, in
node insertion order. -/
def noParents0 (g : PlotGraph) : List String :=
  (imKeys g.nodes).filter (fun name =>
    match imFind? g.parents name with
    | some nodeParents => nodeParents.isEmpty
    | none => true)

/-- Embedding of `PlotGraph::validate_no_cycles`. -/
def validate_no_cycles (g : PlotGraph) : Res Unit :=
  match kahnLoop g.nodes.length g.children g.nodes.length [] g.parents (noParents0 g) with
  | .done _ => .ok ()
  | .cycles names => .err (.systemSetupCauseless (cycleMsg names))
  | .panic => .panic

/-- Embedding of `PlotGraph::validate`. -/
def PlotGraph.validate (g : PlotGraph) : Res Unit :=
  match validate_dependencies_exist g with
  | .ok () => validate_no_cycles g
  | r => r

/-! ## Plot executor (warpforge-executors/src/plot.rs) -/

/-- Loop of `PlotExecutor::run` (lines 53-79): pop the most recently pushed
ready step, run it, and relax its children; unlike `validate_no_cycles` it
keeps emptied entries in its parents copy and stops when the stack is
empty.  Returns the visit order (the sequence of `run_step` invocations);
`none` models a panic or exhausted fuel. -/
def execLoop (children : IMap (List String)) :
    Nat → List String → IMap (List String) → List String → Option (List String)
  | fuel, order, parents, stack =>
    match stack.getLast? with
    | none => some order
    | some node =>
      match fuel with
      | 0 => none
      | fuel + 1 =>
        match relaxChildren false children node parents stack.dropLast with
        | none => none
        | some (parents, stack) => execLoop children fuel (order ++ [node]) parents stack

/-- Fuel bound for the executor loop: pushes are bounded by the initial
stack plus one push per (parent, child) edge. -/
def execFuel (g : PlotGraph) : Nat :=
  g.nodes.length + (g.parents.map (fun e => e.2.length)).sum + 1

/-- Order in which `PlotExecutor::run` visits the steps of the graph. -/
def execOrder (g : PlotGraph) : Option (List String) :=
  execLoop g.children (execFuel g) [] g.parents (noParents0 g)

/-- Header line `logln!("step '{step_name}'")` emitted for each completed
step, in visit order. -/
def stepLogHeaders (g : PlotGraph) : Option (List String) :=
  (execOrder g).map (List.map (fun n => "step " ++ sq ++ n ++ sq))

/-- Error message of `PlotExecutor::run_step` when neither the plot nor the
step carries an image. -/
def imageRequiredMsg (stepName : String) : String :=
  "invalid plot (step " ++ sq ++ stepName ++ sq ++ "): image required"

/-- Error message of `PlotExecutor::run_step` for a forbidden output
packtype. -/
def packtypeMsg (stepName : String) : String :=
  "invalid plot (step " ++ sq ++ stepName ++ sq ++ "): output packtype has to be "
    ++ sq ++ "none" ++ sq

/-- Translation of one step input to a formula input in
`PlotExecutor::run_step`: mounts, literals and wares pass through; a pipe
with a non-empty step name becomes a read-only mount of the referenced
output directory; a pipe with an empty step name, a catalog reference and
an ingest all hit `todo!()`, modelled as `none`. -/
def translateStepInput (tempDir : String) : PlotInput → Option FormulaInput
  | .mount m => some (.mount m)
  | .literal l => some (.literal l)
  | .ware w => some (.ware w)
  | .pipe pr =>
    if pr.step_name = "" then none
    else some (.mount (.readOnly (tempDir ++ "/" ++ pr.step_name ++ "/outputs/" ++ pr.label)))
  | .catalogRef => none
  | .ingest => none

/-- The inputs of the built formula: translate each step input and collect
into an `IndexMap` in insertion order. -/
def translateStepInputs (tempDir : String) :
    List (String × PlotInput) → IMap FormulaInput → Option (IMap FormulaInput)
  | [], acc => some acc
  | (port, input) :: rest, acc =>
    match translateStepInput tempDir input with
    | none => none
    | some fi => translateStepInputs tempDir rest (imInsert acc port fi)

/-- True when a gather directive carries a packtype other than `"none"`. -/
def badPacktype (d : GatherDirective) : Bool :=
  match d.packtype with
  | some p => p != "none"
  | none => false

/-- Embedding of the pure part of `PlotExecutor::run_step` (plot.rs lines
98-156): reject sub-plot steps (`todo!()`), choose the image via
`self.plot.image.as_ref().or(step.image.as_ref())`, fail with
`imageRequiredMsg` when both are absent, translate the inputs, reject
non-`"none"` output packtypes, and build the formula handed to
`run_formula`. -/
def runStepFormula (plot : Plot) (tempDir stepName : String) (step : Step) : Res Formula :=
  match step with
  | .plot => .panic
  | .protoformula pf =>
    match (match plot.image with
           | some i => some i
           | none => pf.image) with
    | none => .err (.systemSetupCauseless (imageRequiredMsg stepName))
    | some image =>
      match translateStepInputs tempDir pf.inputs [] with
      | none => .panic
      | some inputs =>
        if pf.outputs.any (fun e => badPacktype e.2) then
          .err (.systemSetupCauseless (packtypeMsg stepName))
        else
          .ok { image := image, inputs := inputs, action := pf.action, outputs := pf.outputs }

/-! ## Specification-side definitions

The following definitions restate graph notions in the words of the spec
(pipes, dependency references, cycles, reachability); the theorems below
compare the embedded code against them. -/

/-- Insert every element of `xs` in order (first-occurrence
deduplication). -/
def isetInsertAll (s : List String) (xs : List String) : List String :=
  xs.foldl isetInsert s

/-- First-occurrence deduplication of a list. -/
def dedupFirst (xs : List String) : List String := isetInsertAll [] xs

/-- The non-empty pipe step names occurring in an input list, in insertion
order (with repetitions). -/
def pipeRefsIn (inputs : List (String × PlotInput)) : List String :=
  inputs.filterMap (fun e =>
    match e.2 with
    | .pipe pr => if pr.step_name = "" then none else some pr.step_name
    | _ => none)

/-- The non-empty pipe step names of a step (empty for sub-plot steps). -/
def stepPipeRefs : Step → List String
  | .plot => []
  | .protoformula pf => pipeRefsIn pf.inputs

/-- Every non-empty pipe step name referenced anywhere in the plot, in
traversal order. -/
def allRefs (p : Plot) : List String :=
  p.steps.flatMap (fun e => stepPipeRefs e.2)

/-- The steps among `steps` that reference `target` through a pipe, in
step insertion order. -/
def referencersIn (steps : IMap Step) (target : String) : List String :=
  steps.filterMap (fun e => if target ∈ stepPipeRefs e.2 then some e.1 else none)

/-- The steps of the plot that reference `target` through a pipe, in step
insertion order. -/
def referencers (p : Plot) (target : String) : List String :=
  referencersIn p.steps target

/-- Specification of the parents map built by `PlotGraph::new` over a step
list: a step has an entry exactly when it has at least one non-empty pipe
reference, holding its referenced step names deduplicated in first
occurrence order. -/
def parentsSpec (steps : IMap Step) (t : String) : Option (List String) :=
  match imFind? steps t with
  | some (Step.protoformula pf) =>
    if pipeRefsIn pf.inputs = [] then none else some (dedupFirst (pipeRefsIn pf.inputs))
  | _ => none

/-- Specification of the children map built by `PlotGraph::new` over a
step list: a name has an entry exactly when some step pipes from it,
holding the referencing steps in insertion order. -/
def childrenSpec (steps : IMap Step) (t : String) : Option (List String) :=
  if referencersIn steps t = [] then none else some (referencersIn steps t)

/-- Accumulation of a reference list onto an optional parents entry (how
the inner loop of `PlotGraph::new` grows the current step's entry). -/
def paccum (o : Option (List String)) (refs : List String) : Option (List String) :=
  if refs = [] then o else some (isetInsertAll (o.getD []) refs)

/-- Parent set of a node in the graph (empty when absent). -/
def parSet (g : PlotGraph) (c : String) : List String := (imFind? g.parents c).getD []

/-- Child set of a node in the graph (empty when absent). -/
def childSet (g : PlotGraph) (n : String) : List String := (imFind? g.children n).getD []

/-- Edge relation of the step graph: `rel g p c` holds when `p` is a parent
of `c`, i.e. `c` pipes from an output of `p`. -/
def rel (g : PlotGraph) (p c : String) : Prop := p ∈ parSet g c

/-- A vertex lies on a (non-trivial) cycle exactly when a chain of one or
more edges leads from the vertex back to itself; for a finite graph these
are exactly the vertices of the non-trivial strongly connected
components. -/
def onCycle (g : PlotGraph) (u : String) : Prop := Relation.TransGen (rel g) u u

/-- `u` reaches `v` along zero or more dependency edges (so `v` transitively
depends on `u`). -/
def reaches (g : PlotGraph) (u v : String) : Prop := Relation.ReflTransGen (rel g) u v

/-- The parents graph is acyclic. -/
def acyclicG (g : PlotGraph) : Prop := ∀ u, ¬ onCycle g u

/-- Every referenced parent names an existing step
(`validate_dependencies_exist` succeeds exactly on such graphs). -/
def depsOk (g : PlotGraph) : Prop := ∀ e ∈ g.children, e.1 ∈ imKeys g.nodes

/-- A step is supported when all its parents are supported steps: the
accessible part of the dependency relation, restricted to existing nodes.
`validate_no_cycles` orders exactly the supported steps. -/
inductive Sup (g : PlotGraph) : String → Prop where
  | mk (v : String) (hv : v ∈ imKeys g.nodes) (hp : ∀ p ∈ parSet g v, Sup g p) : Sup g v

/-- Well-formedness of a constructed plot graph (established for every
graph built by `PlotGraph::new`): node keys are unique, adjacency keys are
unique, parent entries are non-empty duplicate-free sets over existing
steps, the parents and children maps are symmetric, and child sets are
duplicate-free. -/
structure WFGraph (g : PlotGraph) : Prop where
  nodes_nodup : (imKeys g.nodes).Nodup
  parents_keysnodup : (imKeys g.parents).Nodup
  children_keysnodup : (imKeys g.children).Nodup
  par_entry : ∀ c l, imFind? g.parents c = some l → l.Nodup ∧ l ≠ [] ∧ c ∈ imKeys g.nodes
  symm : ∀ x c, x ∈ parSet g c ↔ c ∈ childSet g x
  child_nodup : ∀ n, (childSet g n).Nodup

/-- Loop invariant of the Kahn traversal in `validate_no_cycles`, over the
completed order, the mutable parents map and the ready stack. -/
structure KInv (g : PlotGraph) (order : List String) (pm : IMap (List String))
    (stack : List String) : Prop where
  ord_nodup : order.Nodup
  ord_nodes : ∀ v ∈ order, v ∈ imKeys g.nodes
  ord_closed : ∀ v ∈ order, ∀ x ∈ parSet g v, x ∈ order
  ord_sup : ∀ v ∈ order, Sup g v
  stk_nodup : stack.Nodup
  stk_nodes : ∀ v ∈ stack, v ∈ imKeys g.nodes
  stk_not_ord : ∀ v ∈ stack, v ∉ order
  stk_ready : ∀ v ∈ stack, ∀ x ∈ parSet g v, x ∈ order
  stk_no_entry : ∀ v ∈ stack, imFind? pm v = none
  pm_keysnodup : (imKeys pm).Nodup
  pm_keys_par : ∀ c ∈ imKeys pm, c ∈ imKeys g.parents
  pm_some : ∀ c l, imFind? pm c = some l →
    l.Nodup ∧ l ≠ [] ∧ ∀ x, (x ∈ l ↔ x ∈ parSet g c ∧ x ∉ order)
  pm_none : ∀ c, imFind? pm c = none → ∀ x ∈ parSet g c, x ∈ order
  complete : ∀ v, v ∈ imKeys g.nodes → v ∉ order → (∀ x ∈ parSet g v, x ∈ order) → v ∈ stack

/-- Intermediate invariant while the children of the just-popped `node`
are being relaxed; `done` lists the children already processed. -/
structure RInv (g : PlotGraph) (node : String) (order : List String) (done : List String)
    (pm : IMap (List String)) (stack : List String) : Prop where
  pm_keysnodup : (imKeys pm).Nodup
  pm_keys_par : ∀ c ∈ imKeys pm, c ∈ imKeys g.parents
  pm_some : ∀ c l, imFind? pm c = some l → l.Nodup ∧ l ≠ [] ∧
    ∀ x, (x ∈ l ↔ x ∈ parSet g c ∧ x ∉ order ∧ (x = node → c ∉ done))
  pm_none : ∀ c, imFind? pm c = none →
    ∀ x ∈ parSet g c, x ∈ order ∨ (x = node ∧ c ∈ done)
  stk_nodup : stack.Nodup
  stk_nodes : ∀ v ∈ stack, v ∈ imKeys g.nodes
  stk_not_ord : ∀ v ∈ stack, v ∉ order ∧ v ≠ node
  stk_ready : ∀ v ∈ stack, ∀ x ∈ parSet g v, x ∈ order ∨ x = node
  stk_no_entry : ∀ v ∈ stack, imFind? pm v = none
  complete : ∀ v, v ∈ imKeys g.nodes → v ∉ order → v ≠ node →
    (∀ x ∈ parSet g v, x ∈ order ∨ (x = node ∧ v ∈ done)) → v ∈ stack

/-- Decimal value of a digit-character list under an accumulator (used to
show that decimal printing of indices is injective, so the script entry
files have pairwise distinct paths). -/
def digitsValFrom (a : Nat) (l : List Char) : Nat :=
  l.foldl (fun x c => 10 * x + (c.toNat - 48)) a

/-- Path of the `n`-th script entry file under the script directory. -/
def entryPath (scriptDir : String) (n : Nat) : String :=
  scriptDir ++ "/" ++ ("entry-" ++ toString n)

/-- Line appended to the `run` file for the `n`-th script entry. -/
def runLine (n : Nat) : String :=
  ". " ++ container_script_path ++ "/" ++ ("entry-" ++ toString n) ++ "\n"

/-- Content of the `run` file for entries starting at index `k`: one
`runLine` per entry, in index order. -/
def runContentFrom (k : Nat) : List String → String
  | [] => ""
  | _ :: rest => runLine k ++ runContentFrom (k + 1) rest

/-! ## Support lemmas: strings and decimal printing -/

theorem strCancelLeft {s a b : String} (h : s ++ a = s ++ b) : a = b := by
  have hd := congrArg String.data h
  simp only [String.data_append] at hd
  exact String.ext (List.append_cancel_left hd)

theorem toDigitsCore_shift (b : Nat) :
    ∀ (f n : Nat) (acc : List Char),
      Nat.toDigitsCore b f n acc = Nat.toDigitsCore b f n [] ++ acc := by
  intro f
  induction f with
  | zero => intro n acc; simp [Nat.toDigitsCore]
  | succ f ih =>
    intro n acc
    simp only [Nat.toDigitsCore]
    by_cases h : n / b = 0
    · simp [h]
    · simp only [h, if_false]
      rw [ih (n / b) [Nat.digitChar (n % b)], ih (n / b) (Nat.digitChar (n % b) :: acc),
        List.append_assoc]
      rfl

theorem digitsValFrom_toDigitsCore :
    ∀ (f n a : Nat), n < f →
      digitsValFrom a (Nat.toDigitsCore 10 f n []) =
        a * 10 ^ (Nat.toDigitsCore 10 f n []).length + n := by
  intro f
  induction f with
  | zero => intro n a h; omega
  | succ f ih =>
    intro n a h
    simp only [Nat.toDigitsCore]
    by_cases h0 : n / 10 = 0
    · have hn : n < 10 := by
        rcases Nat.lt_or_ge n 10 with h10 | h10
        · exact h10
        · exact absurd h0 (by
            have : 0 < n / 10 := Nat.div_pos h10 (by omega)
            omega)
      have hmod : n % 10 = n := Nat.mod_eq_of_lt hn
      have hdig : (Nat.digitChar n).toNat - 48 = n := by
        have : ∀ m < 10, (Nat.digitChar m).toNat - 48 = m := by decide
        exact this n hn
      simp [h0, hmod, digitsValFrom, hdig]
      omega
    · have hge : 10 ≤ n := by
        rcases Nat.lt_or_ge n 10 with h10 | h10
        · exact absurd (Nat.div_eq_of_lt h10) h0
        · exact h10
      have hlt : n / 10 < f := by
        have := Nat.div_lt_self (show 0 < n by omega) (show 1 < 10 by omega)
        omega
      simp only [h0, if_false]
      rw [toDigitsCore_shift]
      have hdig : (Nat.digitChar (n % 10)).toNat - 48 = n % 10 := by
        have : ∀ m < 10, (Nat.digitChar m).toNat - 48 = m := by decide
        exact this (n % 10) (Nat.mod_lt _ (by omega))
      simp only [digitsValFrom, List.foldl_append, List.foldl_cons, List.foldl_nil,
        List.length_append, List.length_cons, List.length_nil]
      have ihv := ih (n / 10) a hlt
      simp only [digitsValFrom] at ihv
      rw [ihv, hdig]
      have : 10 * (a * 10 ^ (Nat.toDigitsCore 10 f (n / 10) []).length + n / 10) + n % 10 =
          a * (10 ^ (Nat.toDigitsCore 10 f (n / 10) []).length * 10) + (10 * (n / 10) + n % 10) := by
        ring
      rw [this, Nat.div_add_mod]
      ring_nf

theorem natToString_inj {m n : Nat} (h : toString m = toString n) : m = n := by
  have hd : Nat.toDigits 10 m = Nat.toDigits 10 n := congrArg String.data h
  have hm := digitsValFrom_toDigitsCore (m + 1) m 0 (Nat.lt_succ_self m)
  have hn := digitsValFrom_toDigitsCore (n + 1) n 0 (Nat.lt_succ_self n)
  have hm' : digitsValFrom 0 (Nat.toDigits 10 m) = m := by
    simpa [Nat.toDigits] using hm
  have hn' : digitsValFrom 0 (Nat.toDigits 10 n) = n := by
    simpa [Nat.toDigits] using hn
  rw [← hm', ← hn', hd]

theorem entryName_ne_run (t : String) : ("entry-" ++ t : String) ≠ "run" := by
  intro h
  have hd := congrArg String.data h
  simp [String.data_append] at hd

theorem entryName_inj {i j : Nat}
    (h : ("entry-" ++ toString i : String) = "entry-" ++ toString j) : i = j :=
  natToString_inj (strCancelLeft h)

theorem entryPath_ne_runPath (sd : String) (i : Nat) : entryPath sd i ≠ sd ++ "/run" := by
  intro h
  rw [entryPath, String.append_assoc] at h
  have : ("/" ++ ("entry-" ++ toString i) : String) = "/" ++ "run" := by
    have hr : (sd ++ ("/" ++ ("entry-" ++ toString i)) : String) = sd ++ ("/" ++ "run") := by
      rw [← String.append_assoc] at h ⊢
      exact h
    exact strCancelLeft hr
  exact entryName_ne_run (toString i) (strCancelLeft this)

theorem entryPath_inj {sd : String} {i j : Nat} (h : entryPath sd i = entryPath sd j) : i = j := by
  rw [entryPath, entryPath, String.append_assoc, String.append_assoc] at h
  exact entryName_inj (strCancelLeft (strCancelLeft h))

/-! ## Support lemmas: insertion-ordered maps -/

theorem imFind?_imInsert_self {α : Type} (m : IMap α) (k : String) (v : α) :
    imFind? (imInsert m k v) k = some v := by
  induction m with
  | nil => simp [imInsert, imFind?]
  | cons e rest ih =>
    by_cases h : e.1 = k
    · simp [imInsert, h, imFind?]
    · simp [imInsert, h, imFind?, ih]

theorem imFind?_imInsert_ne {α : Type} (m : IMap α) {k kq : String} (v : α) (h : kq ≠ k) :
    imFind? (imInsert m k v) kq = imFind? m kq := by
  have hkkq : ¬ (k = kq) := fun hh => h hh.symm
  induction m with
  | nil => simp [imInsert, imFind?, hkkq]
  | cons e rest ih =>
    by_cases he : e.1 = k
    · subst he
      simp [imInsert, imFind?, hkkq]
    · simp [imInsert, he, imFind?, ih]

theorem imFind?_eq_none_iff {α : Type} (m : IMap α) (k : String) :
    imFind? m k = none ↔ k ∉ imKeys m := by
  induction m with
  | nil => simp [imFind?, imKeys]
  | cons e rest ih =>
    rw [imFind?]
    by_cases h : e.1 = k
    · simp [h, imKeys]
    · rw [if_neg h, ih]
      simp only [imKeys, List.map_cons, List.mem_cons]
      constructor
      · intro hk hor
        rcases hor with h1 | h2
        · exact h h1.symm
        · exact hk h2
      · intro hny hk
        exact hny (Or.inr hk)

theorem imFind?_isSome_iff {α : Type} (m : IMap α) (k : String) :
    (imFind? m k).isSome = true ↔ k ∈ imKeys m := by
  rcases h : imFind? m k with _ | v
  · simpa using (imFind?_eq_none_iff m k).mp h
  · simp only [Option.isSome_some, true_iff]
    by_contra hk
    rw [(imFind?_eq_none_iff m k).mpr hk] at h
    cases h

theorem imFind?_some_mem {α : Type} {m : IMap α} {k : String} {v : α}
    (h : imFind? m k = some v) : (k, v) ∈ m := by
  induction m with
  | nil => cases h
  | cons e rest ih =>
    by_cases he : e.1 = k
    · rw [imFind?, if_pos he] at h
      cases h
      have he2 : (k, e.2) = e := by
        rw [← he]
      rw [he2]
      exact List.mem_cons_self _ _
    · rw [imFind?, if_neg he] at h
      exact List.mem_cons_of_mem _ (ih h)

theorem imFind?_append {α : Type} (m mm : IMap α) (k : String) :
    imFind? (m ++ mm) k
      = match imFind? m k with
        | some v => some v
        | none => imFind? mm k := by
  induction m with
  | nil => simp [imFind?]
  | cons e rest ih =>
    by_cases h : e.1 = k
    · simp [imFind?, h]
    · simp [imFind?, h, ih]

theorem imInsert_fresh {α : Type} {m : IMap α} {k : String} (v : α) (h : k ∉ imKeys m) :
    imInsert m k v = m ++ [(k, v)] := by
  induction m with
  | nil => rfl
  | cons e rest ih =>
    simp only [imKeys, List.map_cons, List.mem_cons] at h
    push_neg at h
    have hne : ¬ e.1 = k := fun hh => h.1 hh.symm
    rw [imInsert, if_neg hne, ih (by simpa [imKeys] using h.2)]
    rfl

theorem isetInsert_mem (s : List String) (x y : String) :
    y ∈ isetInsert s x ↔ y ∈ s ∨ y = x := by
  by_cases h : x ∈ s
  · simp only [isetInsert, if_pos h]
    constructor
    · exact fun hy => Or.inl hy
    · rintro (hy | rfl)
      · exact hy
      · exact h
  · simp [isetInsert, if_neg h]

theorem isetInsert_nodup {s : List String} (x : String) (h : s.Nodup) :
    (isetInsert s x).Nodup := by
  by_cases hx : x ∈ s
  · simpa [isetInsert, if_pos hx] using h
  · rw [isetInsert, if_neg hx]
    simpa [List.nodup_append] using ⟨h, hx⟩

theorem isetInsert_fresh {s : List String} {x : String} (h : x ∉ s) :
    isetInsert s x = s ++ [x] := by
  rw [isetInsert, if_neg h]

theorem isetInsert_ne_nil (s : List String) (x : String) : isetInsert s x ≠ [] := by
  by_cases h : x ∈ s
  · rw [isetInsert, if_pos h]
    intro hnil
    rw [hnil] at h
    cases h
  · rw [isetInsert, if_neg h]
    simp

theorem isetInsertAll_append (s : List String) (xs ys : List String) :
    isetInsertAll s (xs ++ ys) = isetInsertAll (isetInsertAll s xs) ys := by
  simp [isetInsertAll, List.foldl_append]

theorem isetInsertAll_mem (xs : List String) :
    ∀ (s : List String) (y : String), y ∈ isetInsertAll s xs ↔ y ∈ s ∨ y ∈ xs := by
  induction xs with
  | nil => simp [isetInsertAll]
  | cons x rest ih =>
    intro s y
    show y ∈ isetInsertAll (isetInsert s x) rest ↔ _
    rw [ih, isetInsert_mem]
    simp only [List.mem_cons]
    tauto

theorem isetInsertAll_nodup (xs : List String) :
    ∀ (s : List String), s.Nodup → (isetInsertAll s xs).Nodup := by
  induction xs with
  | nil => intro s h; exact h
  | cons x rest ih =>
    intro s h
    exact ih (isetInsert s x) (isetInsert_nodup x h)

theorem dedupFirst_mem (xs : List String) (y : String) :
    y ∈ dedupFirst xs ↔ y ∈ xs := by
  rw [dedupFirst, isetInsertAll_mem]
  simp

theorem dedupFirst_nodup (xs : List String) : (dedupFirst xs).Nodup :=
  isetInsertAll_nodup xs [] List.nodup_nil

theorem imFind?_imEntryInsert_self (m : IMap (List String)) (k x : String) :
    imFind? (imEntryInsert m k x) k = some (isetInsert ((imFind? m k).getD []) x) := by
  induction m with
  | nil => simp [imEntryInsert, imFind?]
  | cons e rest ih =>
    by_cases he : e.1 = k
    · subst he
      simp [imEntryInsert, imFind?]
    · have hr : imFind? (e :: rest) k = imFind? rest k := by
        rw [imFind?, if_neg he]
      rw [imEntryInsert, if_neg he, imFind?, if_neg he, ih, hr]

theorem imFind?_imEntryInsert_ne (m : IMap (List String)) {k kq : String} (x : String)
    (h : kq ≠ k) : imFind? (imEntryInsert m k x) kq = imFind? m kq := by
  induction m with
  | nil =>
    have hk : ¬ k = kq := fun hh => h hh.symm
    simp [imEntryInsert, imFind?, hk]
  | cons e rest ih =>
    by_cases he : e.1 = k
    · subst he
      have hq : ¬ (e.1 = kq) := fun hh => h hh.symm
      simp [imEntryInsert, imFind?, hq]
    · by_cases hq : e.1 = kq
      · simp [imEntryInsert, he, imFind?, hq, h]
      · simp [imEntryInsert, he, imFind?, hq, ih]

theorem imKeys_cons {α : Type} (e : String × α) (rest : IMap α) :
    imKeys (e :: rest) = e.1 :: imKeys rest := rfl

theorem imKeys_imEntryInsert (m : IMap (List String)) (k x : String) :
    imKeys (imEntryInsert m k x) = if k ∈ imKeys m then imKeys m else imKeys m ++ [k] := by
  induction m with
  | nil => simp [imEntryInsert, imKeys]
  | cons e rest ih =>
    by_cases he : e.1 = k
    · subst he
      rw [imEntryInsert, if_pos rfl, imKeys_cons, imKeys_cons,
        if_pos (List.mem_cons_self _ _)]
    · rw [imEntryInsert, if_neg he, imKeys_cons, ih, imKeys_cons]
      by_cases hk : k ∈ imKeys rest
      · rw [if_pos hk, if_pos (List.mem_cons_of_mem _ hk)]
      · rw [if_neg hk, if_neg (by
          intro hmem
          rcases List.mem_cons.mp hmem with h1 | h2
          · exact he h1.symm
          · exact hk h2)]
        rfl

theorem imKeys_imEntryInsert_nodup {m : IMap (List String)} (k x : String)
    (h : (imKeys m).Nodup) : (imKeys (imEntryInsert m k x)).Nodup := by
  rw [imKeys_imEntryInsert]
  by_cases hk : k ∈ imKeys m
  · rwa [if_pos hk]
  · rw [if_neg hk]
    simpa [List.nodup_append] using ⟨h, hk⟩

theorem mem_imFind? {α : Type} {m : IMap α} (hk : (imKeys m).Nodup) {k : String} {v : α}
    (h : (k, v) ∈ m) : imFind? m k = some v := by
  induction m with
  | nil => cases h
  | cons e rest ih =>
    rw [imKeys_cons, List.nodup_cons] at hk
    rcases List.mem_cons.mp h with h1 | h2
    · rw [← h1, imFind?, if_pos rfl]
    · have hkmem : k ∈ imKeys rest := List.mem_map.mpr ⟨(k, v), h2, rfl⟩
      have hk1 : ¬ e.1 = k := fun hh => hk.1 (by rw [hh]; exact hkmem)
      rw [imFind?, if_neg hk1]
      exact ih hk.2 h2

theorem isetInsert_idem {s : List String} {x : String} (h : x ∈ s) : isetInsert s x = s := by
  rw [isetInsert, if_pos h]

theorem paccum_cons (o : Option (List String)) (r : String) (refs : List String) :
    paccum o (r :: refs) = paccum (some (isetInsert (o.getD []) r)) refs := by
  by_cases h : refs = []
  · subst h
    rw [paccum, if_neg (by simp), paccum, if_pos rfl]
    rfl
  · rw [paccum, if_neg (by simp), paccum, if_neg h]
    rfl

theorem plotGraphEdge_fold_spec (name : String) :
    ∀ (inputs : List (String × PlotInput)) (pc : IMap (List String) × IMap (List String)),
      (∀ t, t ≠ name →
        imFind? (inputs.foldl (plotGraphEdge name) pc).1 t = imFind? pc.1 t)
      ∧ imFind? (inputs.foldl (plotGraphEdge name) pc).1 name
          = paccum (imFind? pc.1 name) (pipeRefsIn inputs)
      ∧ (∀ t, imFind? (inputs.foldl (plotGraphEdge name) pc).2 t
          = if t ∈ pipeRefsIn inputs
            then some (isetInsert ((imFind? pc.2 t).getD []) name)
            else imFind? pc.2 t)
      ∧ ((imKeys pc.1).Nodup → (imKeys (inputs.foldl (plotGraphEdge name) pc).1).Nodup)
      ∧ ((imKeys pc.2).Nodup → (imKeys (inputs.foldl (plotGraphEdge name) pc).2).Nodup) := by
  intro inputs
  induction inputs with
  | nil =>
    intro pc
    refine ⟨fun t _ => rfl, ?_, fun t => ?_, fun h => h, fun h => h⟩
    · rw [pipeRefsIn, List.filterMap_nil, paccum, if_pos rfl]
      rfl
    · rw [pipeRefsIn, List.filterMap_nil]
      simp
  | cons inp rest ih =>
    intro pc
    rcases hskip : inp.2 with m | l | w | pr | _ | _
    case mount =>
      have hstep : plotGraphEdge name pc inp = pc := by
        simp only [plotGraphEdge, hskip]
      have hrefs : pipeRefsIn (inp :: rest) = pipeRefsIn rest := by
        simp only [pipeRefsIn, List.filterMap_cons, hskip]
      rw [List.foldl_cons, hstep, hrefs]
      exact ih pc
    case literal =>
      have hstep : plotGraphEdge name pc inp = pc := by
        simp only [plotGraphEdge, hskip]
      have hrefs : pipeRefsIn (inp :: rest) = pipeRefsIn rest := by
        simp only [pipeRefsIn, List.filterMap_cons, hskip]
      rw [List.foldl_cons, hstep, hrefs]
      exact ih pc
    case ware =>
      have hstep : plotGraphEdge name pc inp = pc := by
        simp only [plotGraphEdge, hskip]
      have hrefs : pipeRefsIn (inp :: rest) = pipeRefsIn rest := by
        simp only [pipeRefsIn, List.filterMap_cons, hskip]
      rw [List.foldl_cons, hstep, hrefs]
      exact ih pc
    case catalogRef =>
      have hstep : plotGraphEdge name pc inp = pc := by
        simp only [plotGraphEdge, hskip]
      have hrefs : pipeRefsIn (inp :: rest) = pipeRefsIn rest := by
        simp only [pipeRefsIn, List.filterMap_cons, hskip]
      rw [List.foldl_cons, hstep, hrefs]
      exact ih pc
    case ingest =>
      have hstep : plotGraphEdge name pc inp = pc := by
        simp only [plotGraphEdge, hskip]
      have hrefs : pipeRefsIn (inp :: rest) = pipeRefsIn rest := by
        simp only [pipeRefsIn, List.filterMap_cons, hskip]
      rw [List.foldl_cons, hstep, hrefs]
      exact ih pc
    case pipe =>
    by_cases hempty : pr.step_name = ""
    · have hstep : plotGraphEdge name pc inp = pc := by
        simp only [plotGraphEdge, hskip, if_pos hempty]
      have hrefs : pipeRefsIn (inp :: rest) = pipeRefsIn rest := by
        simp only [pipeRefsIn, List.filterMap_cons, hskip, if_pos hempty]
      rw [List.foldl_cons, hstep, hrefs]
      exact ih pc
    · have hstep : plotGraphEdge name pc inp
          = (imEntryInsert pc.1 name pr.step_name, imEntryInsert pc.2 pr.step_name name) := by
        simp only [plotGraphEdge, hskip, if_neg hempty]
      have hrefs : pipeRefsIn (inp :: rest) = pr.step_name :: pipeRefsIn rest := by
        simp only [pipeRefsIn, List.filterMap_cons, hskip, if_neg hempty]
      rw [List.foldl_cons, hstep, hrefs]
      obtain ⟨ih1, ih2, ih3, ih4, ih5⟩ :=
        ih (imEntryInsert pc.1 name pr.step_name, imEntryInsert pc.2 pr.step_name name)
      refine ⟨?_, ?_, ?_, ?_, ?_⟩
      · intro t ht
        rw [ih1 t ht]
        exact imFind?_imEntryInsert_ne pc.1 pr.step_name ht
      · rw [ih2]
        show paccum (imFind? (imEntryInsert pc.1 name pr.step_name) name) (pipeRefsIn rest) = _
        rw [imFind?_imEntryInsert_self, paccum_cons]
      · intro t
        rw [ih3 t]
        by_cases hmem : t ∈ pipeRefsIn rest
        · rw [if_pos hmem, if_pos (List.mem_cons_of_mem _ hmem)]
          by_cases htr : t = pr.step_name
          · subst htr
            rw [imFind?_imEntryInsert_self]
            congr 1
            show isetInsert (isetInsert ((imFind? pc.2 pr.step_name).getD []) name) name = _
            exact isetInsert_idem (by rw [isetInsert_mem]; right; rfl)
          · rw [imFind?_imEntryInsert_ne pc.2 name htr]
        · rw [if_neg hmem]
          by_cases htr : t = pr.step_name
          · subst htr
            rw [if_pos (List.mem_cons_self _ _)]
            exact imFind?_imEntryInsert_self pc.2 pr.step_name name
          · rw [if_neg (by
              intro hmem2
              rcases List.mem_cons.mp hmem2 with h1 | h2
              · exact htr h1
              · exact hmem h2)]
            exact imFind?_imEntryInsert_ne pc.2 name htr
      · intro h
        exact ih4 (imKeys_imEntryInsert_nodup name pr.step_name h)
      · intro h
        exact ih5 (imKeys_imEntryInsert_nodup pr.step_name name h)

theorem imFind?_append_singleton_ne {α : Type} (m : IMap α) (e : String × α) {t : String}
    (h : t ≠ e.1) : imFind? (m ++ [e]) t = imFind? m t := by
  rw [imFind?_append]
  rcases hm : imFind? m t with _ | v
  · rw [imFind?, if_neg (fun hh => h hh.symm), imFind?]
  · rfl

theorem imFind?_append_singleton_self {α : Type} (m : IMap α) (e : String × α)
    (h : imFind? m e.1 = none) : imFind? (m ++ [e]) e.1 = some e.2 := by
  rw [imFind?_append, h, imFind?, if_pos rfl]

theorem imKeys_append {α : Type} (a b : IMap α) : imKeys (a ++ b) = imKeys a ++ imKeys b :=
  List.map_append _ a b

theorem referencersIn_append (a b : IMap Step) (t : String) :
    referencersIn (a ++ b) t = referencersIn a t ++ referencersIn b t := by
  simp [referencersIn, List.filterMap_append]

theorem referencersIn_subset {steps : IMap Step} {t y : String}
    (h : y ∈ referencersIn steps t) : y ∈ imKeys steps := by
  simp only [referencersIn, List.mem_filterMap] at h
  obtain ⟨e, he, hval⟩ := h
  by_cases hc : t ∈ stepPipeRefs e.2
  · rw [if_pos hc] at hval
    cases hval
    exact List.mem_map.mpr ⟨e, he, rfl⟩
  · rw [if_neg hc] at hval
    cases hval

theorem referencersIn_nodup {steps : IMap Step} (hk : (imKeys steps).Nodup) (t : String) :
    (referencersIn steps t).Nodup := by
  induction steps with
  | nil => simp [referencersIn]
  | cons e rest ih =>
    rw [imKeys_cons, List.nodup_cons] at hk
    show (List.filterMap _ (e :: rest)).Nodup
    rw [List.filterMap_cons]
    by_cases hc : t ∈ stepPipeRefs e.2
    · rw [if_pos hc]
      exact List.nodup_cons.mpr ⟨fun hmem => hk.1 (referencersIn_subset hmem), ih hk.2⟩
    · rw [if_neg hc]
      exact ih hk.2

theorem referencersIn_singleton (e : String × Step) (t : String) :
    referencersIn [e] t = if t ∈ stepPipeRefs e.2 then [e.1] else [] := by
  by_cases hc : t ∈ stepPipeRefs e.2
  · simp [referencersIn, List.filterMap_cons, hc]
  · simp [referencersIn, List.filterMap_cons, hc]

theorem childrenSpec_getD (steps : IMap Step) (t : String) :
    (childrenSpec steps t).getD [] = referencersIn steps t := by
  rw [childrenSpec]
  by_cases h : referencersIn steps t = []
  · rw [if_pos h, h]
    rfl
  · rw [if_neg h]
    rfl

theorem parentsSpec_append_ne (steps : IMap Step) (e : String × Step) {t : String}
    (h : t ≠ e.1) : parentsSpec (steps ++ [e]) t = parentsSpec steps t := by
  rw [parentsSpec, parentsSpec, imFind?_append_singleton_ne steps e h]

theorem plotGraphFold_spec :
    ∀ (steps done : IMap Step) (st out : IMap Step × IMap (List String) × IMap (List String)),
      (imKeys (done ++ steps)).Nodup →
      st.1 = done →
      (imKeys st.2.1).Nodup →
      (imKeys st.2.2).Nodup →
      (∀ t, imFind? st.2.1 t = parentsSpec done t) →
      (∀ t, imFind? st.2.2 t = childrenSpec done t) →
      steps.foldlM plotGraphStep st = some out →
      out.1 = done ++ steps
      ∧ (imKeys out.2.1).Nodup ∧ (imKeys out.2.2).Nodup
      ∧ (∀ t, imFind? out.2.1 t = parentsSpec (done ++ steps) t)
      ∧ (∀ t, imFind? out.2.2 t = childrenSpec (done ++ steps) t) := by
  intro steps
  induction steps with
  | nil =>
    intro done st out hk h1 h2 h3 h4 h5 hfold
    rw [List.foldlM_nil] at hfold
    injection hfold with hout
    subst hout
    refine ⟨by rw [List.append_nil]; exact h1, h2, h3, fun t => ?_, fun t => ?_⟩
    · rw [List.append_nil]; exact h4 t
    · rw [List.append_nil]; exact h5 t
  | cons e rest ih =>
    intro done st out hk h1 h2 h3 h4 h5 hfold
    rw [List.foldlM_cons] at hfold
    rcases hstep : plotGraphStep st e with _ | st'
    · rw [hstep] at hfold
      cases hfold
    · rw [hstep] at hfold
      simp only [Option.bind_eq_bind, Option.some_bind] at hfold
      have hfresh : e.1 ∉ imKeys done := by
        have hkk : (imKeys done ++ imKeys (e :: rest)).Nodup := by
          rw [← imKeys_append]
          exact hk
        rw [imKeys_cons] at hkk
        have hd := List.disjoint_of_nodup_append hkk
        intro hmem
        exact hd hmem (List.mem_cons_self _ _)
      rcases he2 : e.2 with _ | pf
      · rw [plotGraphStep, he2] at hstep
        cases hstep
      · rw [plotGraphStep, he2] at hstep
        injection hstep with hst'
        obtain ⟨f1, f2, f3, f4, f5⟩ := plotGraphEdge_fold_spec e.1 pf.inputs (st.2.1, st.2.2)
        have hA : st'.1 = done ++ [e] := by
          rw [← hst']
          show imInsert st.1 e.1 (Step.protoformula pf) = done ++ [e]
          rw [h1, imInsert_fresh (Step.protoformula pf) hfresh]
          congr 1
          rw [← he2, Prod.mk.eta]
        have hdonenone : imFind? done e.1 = none := (imFind?_eq_none_iff done e.1).mpr hfresh
        have hP : ∀ t, imFind? st'.2.1 t = parentsSpec (done ++ [e]) t := by
          intro t
          by_cases ht : t = e.1
          · subst ht
            have hval : imFind? st'.2.1 e.1
                = paccum (imFind? st.2.1 e.1) (pipeRefsIn pf.inputs) := by
              rw [← hst']
              exact f2
            rw [hval, h4, parentsSpec, hdonenone]
            rw [parentsSpec, imFind?_append_singleton_self done e hdonenone, he2]
            rw [paccum]
            rfl
          · have hval : imFind? st'.2.1 t = imFind? st.2.1 t := by
              rw [← hst']
              exact f1 t ht
            rw [hval, h4, parentsSpec_append_ne done e ht]
        have hC : ∀ t, imFind? st'.2.2 t = childrenSpec (done ++ [e]) t := by
          intro t
          have hrefsingle : referencersIn (done ++ [e]) t
              = referencersIn done t ++ (if t ∈ pipeRefsIn pf.inputs then [e.1] else []) := by
            rw [referencersIn_append, referencersIn_singleton, he2]
            rfl
          have hfreshref : e.1 ∉ referencersIn done t :=
            fun hmem => hfresh (referencersIn_subset hmem)
          by_cases hmem : t ∈ pipeRefsIn pf.inputs
          · have hval : imFind? st'.2.2 t
                = some (isetInsert ((imFind? st.2.2 t).getD []) e.1) := by
              rw [← hst']
              have := f3 t
              rw [if_pos hmem] at this
              exact this
            rw [hval, h5, childrenSpec_getD, isetInsert_fresh hfreshref]
            rw [childrenSpec, hrefsingle, if_pos hmem]
            rw [if_neg (by simp)]
          · have hval : imFind? st'.2.2 t = imFind? st.2.2 t := by
              rw [← hst']
              have := f3 t
              rw [if_neg hmem] at this
              exact this
            rw [hval, h5, childrenSpec, childrenSpec, hrefsingle, if_neg hmem,
              List.append_nil]
        have hkeys1 : (imKeys st'.2.1).Nodup := by
          rw [← hst']
          exact f4 h2
        have hkeys2 : (imKeys st'.2.2).Nodup := by
          rw [← hst']
          exact f5 h3
        have happ : (done ++ [e]) ++ rest = done ++ e :: rest := by
          rw [List.append_assoc]
          rfl
        have := ih (done ++ [e]) st' out (by rw [happ]; exact hk) hA hkeys1 hkeys2 hP hC hfold
        rw [happ] at this
        exact this

theorem replaceFirst_of_not_mem {s : List String} {x : String} (b : String) (h : x ∉ s) :
    replaceFirst s x b = s := by
  induction s with
  | nil => rfl
  | cons y rest ih =>
    rw [List.mem_cons] at h
    push_neg at h
    rw [replaceFirst, if_neg (fun hh => h.1 hh.symm), ih h.2]

theorem replaceFirst_split {t : List String} (u : List String) {x : String} (b : String)
    (h : x ∉ t) : replaceFirst (t ++ x :: u) x b = t ++ b :: u := by
  induction t with
  | nil => simp [replaceFirst]
  | cons y rest ih =>
    rw [List.mem_cons] at h
    push_neg at h
    rw [List.cons_append, replaceFirst, if_neg (fun hh => h.1 hh.symm),
      ih h.2, List.cons_append]

theorem isetSwapRemove_not_mem {s : List String} {x : String} (h : x ∉ s) :
    isetSwapRemove s x = (false, s) := by
  rw [isetSwapRemove, if_neg h]

theorem isetSwapRemove_spec {s : List String} {x : String} (hn : s.Nodup) (h : x ∈ s) :
    (isetSwapRemove s x).1 = true
    ∧ ((isetSwapRemove s x).2).Perm (s.erase x) := by
  obtain ⟨t, u, rfl⟩ := List.append_of_mem h
  have hx_t : x ∉ t := by
    intro hmem
    rw [List.nodup_append] at hn
    exact hn.2.2 hmem (List.mem_cons_self _ _)
  have herase : (t ++ x :: u).erase x = t ++ u := by
    rw [List.erase_append_right _ hx_t, List.erase_cons_head]
  rcases hu : u.getLast? with _ | b
  · have hu_nil : u = [] := by
      cases u with
      | nil => rfl
      | cons a rest => simp [List.getLast?_concat] at hu
    subst hu_nil
    rw [isetSwapRemove, if_pos h, List.getLast?_concat]
    dsimp only
    rw [replaceFirst_split [] x hx_t, List.dropLast_concat, herase, List.append_nil]
    exact ⟨rfl, List.Perm.refl t⟩
  · have hu_ne : u ≠ [] := by
      intro hh
      rw [hh] at hu
      cases hu
    obtain ⟨u', rfl⟩ : ∃ u', u = u' ++ [b] := by
      refine ⟨u.dropLast, ?_⟩
      have hlast : u.getLast hu_ne = b := by
        have := List.getLast?_eq_getLast u hu_ne
        rw [hu] at this
        injection this with hh
        exact hh.symm
      rw [← hlast]
      exact (List.dropLast_append_getLast hu_ne).symm
    rw [isetSwapRemove, if_pos h,
      show t ++ x :: (u' ++ [b]) = (t ++ x :: u') ++ [b] by simp, List.getLast?_concat]
    dsimp only
    have hsplit : replaceFirst ((t ++ x :: u') ++ [b]) x b = (t ++ b :: u') ++ [b] := by
      rw [show (t ++ x :: u') ++ [b] = t ++ x :: (u' ++ [b]) by simp,
        replaceFirst_split (u' ++ [b]) b hx_t]
      simp
    have herase2 : ((t ++ x :: u') ++ [b]).erase x = t ++ (u' ++ [b]) := by
      rw [show (t ++ x :: u') ++ [b] = t ++ x :: (u' ++ [b]) by simp]
      exact herase
    rw [hsplit, List.dropLast_concat, herase2]
    refine ⟨rfl, ?_⟩
    have h2 : (b :: u').Perm (u' ++ [b]) := by
      have := @List.perm_append_comm _ [b] u'
      simpa using this
    exact List.Perm.append_left t h2

theorem isetSwapRemove_spec_mem {s : List String} {x : String} (hn : s.Nodup) (h : x ∈ s) :
    ((isetSwapRemove s x).2).Nodup
    ∧ ∀ y, (y ∈ (isetSwapRemove s x).2 ↔ y ∈ s ∧ y ≠ x) := by
  obtain ⟨-, hperm⟩ := isetSwapRemove_spec hn h
  constructor
  · exact hperm.nodup_iff.mpr (hn.erase x)
  · intro y
    rw [hperm.mem_iff, hn.mem_erase_iff]
    tauto

theorem imKeys_decomp {α : Type} {m : IMap α} {c : String} (hc : c ∈ imKeys m) :
    ∃ (t u : IMap α) (lv : α), m = t ++ (c, lv) :: u ∧ c ∉ imKeys t := by
  induction m with
  | nil => cases hc
  | cons e rest ih =>
    by_cases he : e.1 = c
    · exact ⟨[], rest, e.2, by rw [← he]; simp [Prod.mk.eta], by simp [imKeys]⟩
    · have hc' : c ∈ imKeys rest := by
        rw [imKeys_cons] at hc
        rcases List.mem_cons.mp hc with h1 | h2
        · exact absurd h1.symm he
        · exact h2
      obtain ⟨t, u, lv, heq, hnt⟩ := ih hc'
      refine ⟨e :: t, u, lv, by rw [heq]; rfl, ?_⟩
      rw [imKeys_cons, List.mem_cons]
      push_neg
      exact ⟨fun hh => he hh.symm, hnt⟩

theorem imReplaceFirstKey_split {α : Type} {t : IMap α} (u : IMap α) {c : String} (lv : α)
    (b : String × α) (h : c ∉ imKeys t) :
    imReplaceFirstKey (t ++ (c, lv) :: u) c b = t ++ b :: u := by
  induction t with
  | nil => simp [imReplaceFirstKey]
  | cons e rest ih =>
    rw [imKeys_cons, List.mem_cons] at h
    push_neg at h
    rw [List.cons_append, imReplaceFirstKey, if_neg (fun hh => h.1 hh.symm),
      ih h.2, List.cons_append]

theorem imSwapRemoveKey_spec {α : Type} {m : IMap α} {c : String}
    (hk : (imKeys m).Nodup) (hc : c ∈ imKeys m) :
    ∃ mm : IMap α, imSwapRemoveKey m c = mm
      ∧ (imKeys mm).Nodup
      ∧ imFind? mm c = none
      ∧ (∀ k, k ≠ c → imFind? mm k = imFind? m k) := by
  obtain ⟨t, u, lv, rfl, hnt⟩ := imKeys_decomp hc
  have hkeys : imKeys (t ++ (c, lv) :: u) = imKeys t ++ c :: imKeys u := by
    rw [imKeys_append, imKeys_cons]
  have hknodup : (imKeys t ++ imKeys u).Nodup := by
    rw [hkeys] at hk
    exact (List.nodup_cons.mp (List.nodup_middle.mp hk)).2
  have hcnot : c ∉ imKeys t ++ imKeys u := by
    rw [hkeys] at hk
    exact (List.nodup_cons.mp (List.nodup_middle.mp hk)).1
  have hmain : ∃ mm : IMap α, imSwapRemoveKey (t ++ (c, lv) :: u) c = mm
      ∧ mm.Perm (t ++ u) := by
    have hcont : imContains (t ++ (c, lv) :: u) c = true := by
      rw [imContains, imFind?_isSome_iff]
      rw [hkeys]
      simp
    rcases hu : u.getLast? with _ | b
    · have hu_nil : u = [] := by
        cases u with
        | nil => rfl
        | cons a rest => simp [List.getLast?_concat] at hu
      subst hu_nil
      rw [imSwapRemoveKey, if_pos hcont, List.getLast?_concat]
      dsimp only
      rw [imReplaceFirstKey_split [] lv (c, lv) hnt, List.dropLast_concat]
      exact ⟨t, rfl, by simp⟩
    · have hu_ne : u ≠ [] := fun hh => by rw [hh] at hu; cases hu
      obtain ⟨u', rfl⟩ : ∃ u', u = u' ++ [b] := by
        refine ⟨u.dropLast, ?_⟩
        have hlast : u.getLast hu_ne = b := by
          have := List.getLast?_eq_getLast u hu_ne
          rw [hu] at this
          injection this with hh
          exact hh.symm
        rw [← hlast]
        exact (List.dropLast_append_getLast hu_ne).symm
      rw [imSwapRemoveKey, if_pos hcont,
        show t ++ (c, lv) :: (u' ++ [b]) = (t ++ (c, lv) :: u') ++ [b] by simp,
        List.getLast?_concat]
      dsimp only
      have hsplit : imReplaceFirstKey ((t ++ (c, lv) :: u') ++ [b]) c b
          = (t ++ b :: u') ++ [b] := by
        rw [show (t ++ (c, lv) :: u') ++ [b] = t ++ (c, lv) :: (u' ++ [b]) by simp,
          imReplaceFirstKey_split (u' ++ [b]) lv b hnt]
        simp
      rw [hsplit, List.dropLast_concat]
      refine ⟨t ++ b :: u', rfl, ?_⟩
      have h2 : (b :: u').Perm (u' ++ [b]) := by
        have := @List.perm_append_comm _ [b] u'
        simpa using this
      exact List.Perm.append_left t h2
  obtain ⟨mm, heq, hperm⟩ := hmain
  have hkeysperm : (imKeys mm).Perm (imKeys t ++ imKeys u) := by
    have hmap := hperm.map Prod.fst
    rw [List.map_append] at hmap
    exact hmap
  have hmmnodup : (imKeys mm).Nodup := hkeysperm.nodup_iff.mpr hknodup
  refine ⟨mm, heq, hmmnodup, ?_, ?_⟩
  · rw [imFind?_eq_none_iff]
    intro hmem
    exact hcnot (hkeysperm.mem_iff.mp hmem)
  · intro k hkc
    rcases hf : imFind? (t ++ (c, lv) :: u) k with _ | v
    · rw [imFind?_eq_none_iff] at hf ⊢
      intro hmem
      apply hf
      rw [hkeys]
      have := hkeysperm.mem_iff.mp hmem
      rcases List.mem_append.mp this with h1 | h2
      · exact List.mem_append.mpr (Or.inl h1)
      · exact List.mem_append.mpr (Or.inr (List.mem_cons_of_mem _ h2))
    · have hmem : (k, v) ∈ t ++ (c, lv) :: u := imFind?_some_mem hf
      have hmem2 : (k, v) ∈ t ++ u := by
        rcases List.mem_append.mp hmem with h1 | h2
        · exact List.mem_append.mpr (Or.inl h1)
        · rcases List.mem_cons.mp h2 with h3 | h4
          · exact absurd (congrArg Prod.fst h3) hkc
          · exact List.mem_append.mpr (Or.inr h4)
      exact mem_imFind? hmmnodup (hperm.mem_iff.mpr hmem2)

theorem imKeys_imInsert_mem {α : Type} {m : IMap α} {k : String} (v : α)
    (h : k ∈ imKeys m) : imKeys (imInsert m k v) = imKeys m := by
  induction m with
  | nil => cases h
  | cons e rest ih =>
    by_cases he : e.1 = k
    · rw [imInsert, if_pos he, imKeys_cons, imKeys_cons, he]
    · rw [imKeys_cons, List.mem_cons] at h
      rcases h with h1 | h2
      · exact absurd h1.symm he
      · rw [imInsert, if_neg he, imKeys_cons, imKeys_cons, ih h2]

theorem plotGraphNew_spec (p : Plot) (g : PlotGraph)
    (hg : plotGraphNew p = some g) (hk : (imKeys p.steps).Nodup) :
    g.nodes = p.steps
    ∧ (imKeys g.parents).Nodup
    ∧ (imKeys g.children).Nodup
    ∧ (∀ t, imFind? g.parents t = parentsSpec p.steps t)
    ∧ (∀ t, imFind? g.children t = childrenSpec p.steps t) := by
  rw [plotGraphNew] at hg
  rcases hfold : p.steps.foldlM plotGraphStep ([], [], []) with _ | out
  · rw [hfold] at hg
    cases hg
  · rw [hfold] at hg
    simp only [Option.map_some'] at hg
    injection hg with hgg
    have hspec := plotGraphFold_spec p.steps [] ([], [], []) out
      (by simpa using hk) rfl (by simp [imKeys]) (by simp [imKeys])
      (fun t => by
        show (none : Option (List String)) = parentsSpec [] t
        rw [parentsSpec]
        rfl)
      (fun t => by
        show (none : Option (List String)) = childrenSpec [] t
        rw [childrenSpec, if_pos (show referencersIn [] t = [] from rfl)])
      hfold
    rw [← hgg]
    simpa using hspec

theorem parSet_mem_iff (p : Plot) (g : PlotGraph)
    (hg : plotGraphNew p = some g) (hk : (imKeys p.steps).Nodup) (x c : String) :
    x ∈ parSet g c ↔ ∃ st, (c, st) ∈ p.steps ∧ x ∈ stepPipeRefs st := by
  obtain ⟨-, -, -, hpspec, -⟩ := plotGraphNew_spec p g hg hk
  rw [parSet, hpspec c, parentsSpec]
  rcases hf : imFind? p.steps c with _ | st
  · constructor
    · intro hx
      cases hx
    · rintro ⟨st, hmem, -⟩
      rw [mem_imFind? hk hmem] at hf
      cases hf
  · cases st with
    | plot =>
      constructor
      · intro hx
        cases hx
      · rintro ⟨st, hmem, hx⟩
        have := mem_imFind? hk hmem
        rw [hf] at this
        injection this with hst
        rw [← hst] at hx
        cases hx
    | protoformula pf =>
      dsimp only
      by_cases hnil : pipeRefsIn pf.inputs = []
      · rw [if_pos hnil]
        constructor
        · intro hx
          cases hx
        · rintro ⟨st, hmem, hx⟩
          have := mem_imFind? hk hmem
          rw [hf] at this
          injection this with hst
          rw [← hst] at hx
          rw [stepPipeRefs, hnil] at hx
          cases hx
      · rw [if_neg hnil]
        show x ∈ dedupFirst (pipeRefsIn pf.inputs) ↔ _
        rw [dedupFirst_mem]
        constructor
        · intro hx
          exact ⟨Step.protoformula pf, imFind?_some_mem hf, hx⟩
        · rintro ⟨st, hmem, hx⟩
          have := mem_imFind? hk hmem
          rw [hf] at this
          injection this with hst
          rw [← hst] at hx
          exact hx

theorem childSet_mem_iff (p : Plot) (g : PlotGraph)
    (hg : plotGraphNew p = some g) (hk : (imKeys p.steps).Nodup) (x c : String) :
    c ∈ childSet g x ↔ ∃ st, (c, st) ∈ p.steps ∧ x ∈ stepPipeRefs st := by
  obtain ⟨-, -, -, -, hcspec⟩ := plotGraphNew_spec p g hg hk
  rw [childSet, hcspec x, childrenSpec_getD, referencersIn]
  rw [List.mem_filterMap]
  constructor
  · rintro ⟨e, he, hval⟩
    by_cases hc : x ∈ stepPipeRefs e.2
    · rw [if_pos hc] at hval
      injection hval with hv
      refine ⟨e.2, ?_, hc⟩
      have hce : (c, e.2) = e := by
        rw [← hv]
      rw [hce]
      exact he
    · rw [if_neg hc] at hval
      cases hval
  · rintro ⟨st, hmem, hx⟩
    exact ⟨(c, st), hmem, by rw [if_pos hx]⟩

theorem plotGraphNew_WF (p : Plot) (g : PlotGraph)
    (hg : plotGraphNew p = some g) (hk : (imKeys p.steps).Nodup) : WFGraph g := by
  obtain ⟨hnodes, hpk, hck, hpspec, hcspec⟩ := plotGraphNew_spec p g hg hk
  refine ⟨by rw [hnodes]; exact hk, hpk, hck, ?_, ?_, ?_⟩
  · intro c l hf
    rw [hpspec c, parentsSpec] at hf
    rcases hfs : imFind? p.steps c with _ | st
    · rw [hfs] at hf
      cases hf
    · rw [hfs] at hf
      cases st with
      | plot => cases hf
      | protoformula pf =>
        dsimp only at hf
        by_cases hnil : pipeRefsIn pf.inputs = []
        · rw [if_pos hnil] at hf
          cases hf
        · rw [if_neg hnil] at hf
          injection hf with hl
          refine ⟨by rw [← hl]; exact dedupFirst_nodup _, ?_, ?_⟩
          · rw [← hl]
            rcases hr : pipeRefsIn pf.inputs with _ | ⟨r, rest⟩
            · exact absurd hr hnil
            · intro hd
              have hrm : r ∈ dedupFirst (pipeRefsIn pf.inputs) := by
                rw [dedupFirst_mem, hr]
                exact List.mem_cons_self _ _
              rw [hr, hd] at hrm
              cases hrm
          · rw [hnodes, ← imFind?_isSome_iff, hfs]
            rfl
  · intro x c
    rw [parSet_mem_iff p g hg hk, childSet_mem_iff p g hg hk]
  · intro n
    rw [childSet, hcspec n, childrenSpec_getD]
    exact referencersIn_nodup hk n

theorem parent_in_nodes {g : PlotGraph} (hWF : WFGraph g)
    (hdeps : ∀ e ∈ g.children, e.1 ∈ imKeys g.nodes) :
    ∀ c x, x ∈ parSet g c → x ∈ imKeys g.nodes := by
  intro c x hx
  have hc : c ∈ childSet g x := (hWF.symm x c).mp hx
  rcases hf : imFind? g.children x with _ | l
  · rw [childSet, hf] at hc
    cases hc
  · exact hdeps (x, l) (imFind?_some_mem hf)

theorem relaxFold_spec (g : PlotGraph) (hWF : WFGraph g)
    (order : List String) (node : String)
    (hnode_not_ord : node ∉ order)
    (hnode_ready : ∀ x ∈ parSet g node, x ∈ order)
    (horder_closed : ∀ v ∈ order, ∀ x ∈ parSet g v, x ∈ order) :
    ∀ (todo done : List String) (pm : IMap (List String)) (stack : List String),
      childSet g node = done ++ todo →
      RInv g node order done pm stack →
      ∃ pm2 stack2,
        todo.foldlM (relaxChild true node) (pm, stack) = some (pm2, stack2)
        ∧ RInv g node order (done ++ todo) pm2 stack2 := by
  intro todo
  induction todo with
  | nil =>
    intro done pm stack hsplit hR
    refine ⟨pm, stack, rfl, ?_⟩
    rw [List.append_nil]
    exact hR
  | cons c todo2 ih =>
    intro done pm stack hsplit hR
    have hcs_nodup : (done ++ c :: todo2).Nodup := by
      rw [← hsplit]
      exact hWF.child_nodup node
    have hc_not_done : c ∉ done := by
      intro hmem
      exact (List.disjoint_of_nodup_append hcs_nodup) hmem (List.mem_cons_self _ _)
    have hc_child : c ∈ childSet g node := by
      rw [hsplit]
      exact List.mem_append.mpr (Or.inr (List.mem_cons_self _ _))
    have hnode_par : node ∈ parSet g c := (hWF.symm node c).mpr hc_child
    rcases hf : imFind? pm c with _ | l
    · exfalso
      rcases hR.pm_none c hf node hnode_par with ho | ⟨-, hd⟩
      · exact hnode_not_ord ho
      · exact hc_not_done hd
    obtain ⟨hlnodup, hlne, hliff⟩ := hR.pm_some c l hf
    have hnode_l : node ∈ l :=
      (hliff node).mpr ⟨hnode_par, hnode_not_ord, fun _ => hc_not_done⟩
    have hrem := isetSwapRemove_spec hlnodup hnode_l
    obtain ⟨hr2nodup, hr2mem⟩ := isetSwapRemove_spec_mem hlnodup hnode_l
    have hc_keys : c ∈ imKeys pm := by
      rw [← imFind?_isSome_iff, hf]
      rfl
    have hc_nodes : c ∈ imKeys g.nodes := by
      have hcp := hR.pm_keys_par c hc_keys
      rw [← imFind?_isSome_iff] at hcp
      rcases hfp : imFind? g.parents c with _ | l0
      · rw [hfp] at hcp
        cases hcp
      · exact (hWF.par_entry c l0 hfp).2.2
    have hc_not_ord : c ∉ order := by
      intro hmem
      exact hnode_not_ord (horder_closed c hmem node hnode_par)
    have hc_ne_node : c ≠ node := by
      intro hh
      rw [hh] at hnode_par
      exact hnode_not_ord (hnode_ready node hnode_par)
    have hc_not_stack : c ∉ stack := by
      intro hmem
      rw [hR.stk_no_entry c hmem] at hf
      cases hf
    have hmem2 : ∀ x, (x ∈ (isetSwapRemove l node).2 ↔
        x ∈ parSet g c ∧ x ∉ order ∧ (x = node → c ∉ done ++ [c])) := by
      intro x
      rw [hr2mem x, hliff x]
      constructor
      · rintro ⟨⟨hp, ho, -⟩, hne⟩
        exact ⟨hp, ho, fun hh => absurd hh hne⟩
      · rintro ⟨hp, ho, hC⟩
        have hxne : x ≠ node := by
          intro hh
          exact (hC hh) (List.mem_append.mpr (Or.inr (List.mem_cons_self _ _)))
        exact ⟨⟨hp, ho, fun hh => absurd hh hxne⟩, hxne⟩
    have hsplit2 : childSet g node = (done ++ [c]) ++ todo2 := by
      rw [hsplit]
      simp
    by_cases hempty : (isetSwapRemove l node).2 = []
    · have hrelax : relaxChild true node (pm, stack) c
          = some (imSwapRemoveKey (imInsert pm c []) c, stack ++ [c]) := by
        simp only [relaxChild, hf, hrem.1, hempty, List.isEmpty_nil, Bool.and_true, if_true]
      have hinkeys : imKeys (imInsert pm c ([] : List String)) = imKeys pm :=
        imKeys_imInsert_mem [] hc_keys
      have hinnodup : (imKeys (imInsert pm c ([] : List String))).Nodup := by
        rw [hinkeys]
        exact hR.pm_keysnodup
      have hinc : c ∈ imKeys (imInsert pm c ([] : List String)) := by
        rw [hinkeys]
        exact hc_keys
      obtain ⟨mm, hmm_eq, hmm_nodup, hmm_c, hmm_ne⟩ := imSwapRemoveKey_spec hinnodup hinc
      have hmm_find : ∀ k, k ≠ c → imFind? mm k = imFind? pm k := by
        intro k hkc
        rw [hmm_ne k hkc, imFind?_imInsert_ne pm [] hkc]
      have hmm_keys_sub : ∀ k, k ∈ imKeys mm → k ∈ imKeys pm := by
        intro k hkm
        by_cases hkc : k = c
        · rw [hkc]
          exact hc_keys
        · rw [← imFind?_isSome_iff] at hkm ⊢
          rw [← hmm_find k hkc]
          exact hkm
      have hready_c : ∀ x ∈ parSet g c, x ∈ order ∨ x = node := by
        intro x hx
        by_cases hxn : x = node
        · exact Or.inr hxn
        · left
          by_contra hno
          have : x ∈ (isetSwapRemove l node).2 :=
            (hmem2 x).mpr ⟨hx, hno, fun hh => absurd hh hxn⟩
          rw [hempty] at this
          cases this
      have hRnew : RInv g node order (done ++ [c]) mm (stack ++ [c]) := by
        refine ⟨hmm_nodup, ?_, ?_, ?_, ?_, ?_, ?_, ?_, ?_, ?_⟩
        · intro k hkm
          exact hR.pm_keys_par k (hmm_keys_sub k hkm)
        · intro k l2 hfk
          by_cases hkc : k = c
          · rw [hkc, hmm_c] at hfk
            cases hfk
          · rw [hmm_find k hkc] at hfk
            obtain ⟨hn2, hne2, hiff2⟩ := hR.pm_some k l2 hfk
            refine ⟨hn2, hne2, fun x => ?_⟩
            rw [hiff2 x]
            constructor
            · rintro ⟨hp, ho, hC⟩
              refine ⟨hp, ho, fun hh => ?_⟩
              intro hmem
              rcases List.mem_append.mp hmem with h1 | h2
              · exact (hC hh) h1
              · rw [List.mem_singleton] at h2
                exact hkc h2
            · rintro ⟨hp, ho, hC⟩
              refine ⟨hp, ho, fun hh hmem => (hC hh) (List.mem_append.mpr (Or.inl hmem))⟩
        · intro k hfk x hx
          by_cases hkc : k = c
          · subst hkc
            rcases hready_c x hx with ho | hn
            · exact Or.inl ho
            · exact Or.inr ⟨hn, List.mem_append.mpr (Or.inr (List.mem_cons_self _ _))⟩
          · rw [hmm_find k hkc] at hfk
            rcases hR.pm_none k hfk x hx with ho | ⟨hn, hd⟩
            · exact Or.inl ho
            · exact Or.inr ⟨hn, List.mem_append.mpr (Or.inl hd)⟩
        · rw [List.nodup_append]
          exact ⟨hR.stk_nodup, List.nodup_singleton c, by
            intro a ha hb
            rw [List.mem_singleton] at hb
            rw [hb] at ha
            exact hc_not_stack ha⟩
        · intro v hv
          rcases List.mem_append.mp hv with h1 | h2
          · exact hR.stk_nodes v h1
          · rw [List.mem_singleton] at h2
            rw [h2]
            exact hc_nodes
        · intro v hv
          rcases List.mem_append.mp hv with h1 | h2
          · exact hR.stk_not_ord v h1
          · rw [List.mem_singleton] at h2
            rw [h2]
            exact ⟨hc_not_ord, hc_ne_node⟩
        · intro v hv
          rcases List.mem_append.mp hv with h1 | h2
          · exact hR.stk_ready v h1
          · rw [List.mem_singleton] at h2
            rw [h2]
            exact hready_c
        · intro v hv
          rcases List.mem_append.mp hv with h1 | h2
          · have hvc : v ≠ c := fun hh => hc_not_stack (hh ▸ h1)
            rw [hmm_find v hvc]
            exact hR.stk_no_entry v h1
          · rw [List.mem_singleton] at h2
            rw [h2]
            exact hmm_c
        · intro v hvn hvo hvnn hall
          by_cases hvc : v = c
          · rw [hvc]
            exact List.mem_append.mpr (Or.inr (List.mem_cons_self _ _))
          · have hall2 : ∀ x ∈ parSet g v, x ∈ order ∨ (x = node ∧ v ∈ done) := by
              intro x hx
              rcases hall x hx with ho | ⟨hn, hd⟩
              · exact Or.inl ho
              · rcases List.mem_append.mp hd with h1 | h2
                · exact Or.inr ⟨hn, h1⟩
                · rw [List.mem_singleton] at h2
                  exact absurd h2 hvc
            exact List.mem_append.mpr
              (Or.inl (hR.complete v hvn hvo hvnn hall2))
      obtain ⟨pm2, stack2, hfold2, hR2⟩ := ih (done ++ [c]) mm (stack ++ [c]) hsplit2 hRnew
      refine ⟨pm2, stack2, ?_, ?_⟩
      · rw [List.foldlM_cons, hrelax]
        simp only [Option.bind_eq_bind, Option.some_bind]
        rw [hmm_eq]
        exact hfold2
      · rw [show done ++ c :: todo2 = (done ++ [c]) ++ todo2 by simp]
        exact hR2
    · have hrelax : relaxChild true node (pm, stack) c
          = some (imInsert pm c (isetSwapRemove l node).2, stack) := by
        have hbool : ((isetSwapRemove l node).2).isEmpty = false := by
          rcases hq : (isetSwapRemove l node).2 with _ | ⟨a, b⟩
          · exact absurd hq hempty
          · rfl
        simp only [relaxChild, hf, hrem.1, hbool, Bool.and_false]
        rfl
      have hinkeys : imKeys (imInsert pm c (isetSwapRemove l node).2) = imKeys pm :=
        imKeys_imInsert_mem _ hc_keys
      have hfind_self : imFind? (imInsert pm c (isetSwapRemove l node).2) c
          = some (isetSwapRemove l node).2 := imFind?_imInsert_self pm c _
      have hfind_ne : ∀ k, k ≠ c →
          imFind? (imInsert pm c (isetSwapRemove l node).2) k = imFind? pm k := by
        intro k hkc
        exact imFind?_imInsert_ne pm _ hkc
      have hRnew : RInv g node order (done ++ [c])
          (imInsert pm c (isetSwapRemove l node).2) stack := by
        refine ⟨?_, ?_, ?_, ?_, hR.stk_nodup, hR.stk_nodes, ?_, ?_, ?_, ?_⟩
        · rw [hinkeys]
          exact hR.pm_keysnodup
        · intro k hkm
          rw [hinkeys] at hkm
          exact hR.pm_keys_par k hkm
        · intro k l2 hfk
          by_cases hkc : k = c
          · subst hkc
            rw [hfind_self] at hfk
            injection hfk with hl2
            refine ⟨by rw [← hl2]; exact hr2nodup, by rw [← hl2]; exact hempty, fun x => ?_⟩
            rw [← hl2]
            exact hmem2 x
          · rw [hfind_ne k hkc] at hfk
            obtain ⟨hn2, hne2, hiff2⟩ := hR.pm_some k l2 hfk
            refine ⟨hn2, hne2, fun x => ?_⟩
            rw [hiff2 x]
            constructor
            · rintro ⟨hp, ho, hC⟩
              refine ⟨hp, ho, fun hh hmem => ?_⟩
              rcases List.mem_append.mp hmem with h1 | h2
              · exact (hC hh) h1
              · rw [List.mem_singleton] at h2
                exact hkc h2
            · rintro ⟨hp, ho, hC⟩
              exact ⟨hp, ho, fun hh hmem => (hC hh) (List.mem_append.mpr (Or.inl hmem))⟩
        · intro k hfk x hx
          by_cases hkc : k = c
          · subst hkc
            rw [hfind_self] at hfk
            cases hfk
          · rw [hfind_ne k hkc] at hfk
            rcases hR.pm_none k hfk x hx with ho | ⟨hn, hd⟩
            · exact Or.inl ho
            · exact Or.inr ⟨hn, List.mem_append.mpr (Or.inl hd)⟩
        · intro v hv
          exact hR.stk_not_ord v hv
        · intro v hv
          exact hR.stk_ready v hv
        · intro v hv
          have hvc : v ≠ c := fun hh => hc_not_stack (hh ▸ hv)
          rw [hfind_ne v hvc]
          exact hR.stk_no_entry v hv
        · intro v hvn hvo hvnn hall
          by_cases hvc : v = c
          · exfalso
            rcases hq : (isetSwapRemove l node).2 with _ | ⟨y0, yrest⟩
            · exact hempty hq
            · have hy0 : y0 ∈ (isetSwapRemove l node).2 := by
                rw [hq]
                exact List.mem_cons_self _ _
              obtain ⟨hy0p, hy0o, hy0C⟩ := (hmem2 y0).mp hy0
              rw [hvc] at hall
              rcases hall y0 hy0p with ho | ⟨hn, hd⟩
              · exact hy0o ho
              · exact (hy0C hn) hd
          · have hall2 : ∀ x ∈ parSet g v, x ∈ order ∨ (x = node ∧ v ∈ done) := by
              intro x hx
              rcases hall x hx with ho | ⟨hn, hd⟩
              · exact Or.inl ho
              · rcases List.mem_append.mp hd with h1 | h2
                · exact Or.inr ⟨hn, h1⟩
                · rw [List.mem_singleton] at h2
                  exact absurd h2 hvc
            exact hR.complete v hvn hvo hvnn hall2
      obtain ⟨pm2, stack2, hfold2, hR2⟩ := ih (done ++ [c])
        (imInsert pm c (isetSwapRemove l node).2) stack hsplit2 hRnew
      refine ⟨pm2, stack2, ?_, ?_⟩
      · rw [List.foldlM_cons, hrelax]
        simp only [Option.bind_eq_bind, Option.some_bind]
        exact hfold2
      · rw [show done ++ c :: todo2 = (done ++ [c]) ++ todo2 by simp]
        exact hR2

theorem imFind?_of_mem {α : Type} {m : IMap α} (hk : (imKeys m).Nodup)
    {e : String × α} (he : e ∈ m) : imFind? m e.1 = some e.2 := by
  induction m with
  | nil => cases he
  | cons e0 rest ih =>
    rw [imKeys_cons] at hk
    obtain ⟨hk1, hk2⟩ := List.nodup_cons.mp hk
    rcases List.mem_cons.mp he with h1 | h2
    · rw [h1, imFind?, if_pos rfl]
    · have hne : e0.1 ≠ e.1 := by
        intro hh
        exact hk1 (hh ▸ List.mem_map.mpr ⟨e, h2, rfl⟩)
      rw [imFind?, if_neg hne]
      exact ih hk2 h2

theorem mem_of_imFind? {α : Type} {m : IMap α} {k : String} {v : α}
    (h : imFind? m k = some v) : (k, v) ∈ m := by
  induction m with
  | nil => cases h
  | cons e0 rest ih =>
    rw [imFind?] at h
    by_cases he : e0.1 = k
    · rw [if_pos he] at h
      injection h with hv
      have he2 : e0 = (k, v) := by
        rw [← he, ← hv]
      rw [← he2]
      exact List.mem_cons_self _ _
    · rw [if_neg he] at h
      exact List.mem_cons.mpr (Or.inr (ih h))

theorem cyclesReport_mem {m : IMap (List String)} (hk : (imKeys m).Nodup) (c : String) :
    c ∈ cyclesReport m ↔ ∃ l, imFind? m c = some l ∧ l ≠ [] := by
  rw [cyclesReport]
  constructor
  · intro hc
    obtain ⟨e, hmemf, heq⟩ := List.mem_map.mp hc
    obtain ⟨hme, hpred⟩ := List.mem_filter.mp hmemf
    refine ⟨e.2, ?_, ?_⟩
    · rw [← heq]
      exact imFind?_of_mem hk hme
    · intro hnil
      rw [hnil] at hpred
      simp at hpred
  · rintro ⟨l, hf, hl⟩
    refine List.mem_map.mpr ⟨(c, l), List.mem_filter.mpr ⟨mem_of_imFind? hf, ?_⟩, rfl⟩
    cases l with
    | nil => exact absurd rfl hl
    | cons a rest => rfl

theorem order_covers {g : PlotGraph} {order : List String}
    (hnodup : order.Nodup) (hsub : ∀ v ∈ order, v ∈ imKeys g.nodes)
    (hlen : g.nodes.length ≤ order.length) : ∀ v ∈ imKeys g.nodes, v ∈ order := by
  have hkeylen : (imKeys g.nodes).length = g.nodes.length := by
    rw [imKeys, List.length_map]
  have hsp : order.Subperm (imKeys g.nodes) :=
    List.subperm_of_subset hnodup (fun v hv => hsub v hv)
  have hperm : order.Perm (imKeys g.nodes) := hsp.perm_of_length_le (by omega)
  intro v hv
  exact hperm.mem_iff.mpr hv

theorem sup_mem_order {g : PlotGraph} {order : List String} {pm : IMap (List String)}
    (hK : KInv g order pm []) : ∀ x, Sup g x → x ∈ order := by
  intro x hx
  induction hx with
  | mk v hv hp ih =>
    by_contra hno
    cases hK.complete v hv hno ih

theorem kinvInit (g : PlotGraph) (hWF : WFGraph g) :
    KInv g [] g.parents (noParents0 g) := by
  have hstk_none : ∀ v ∈ noParents0 g, imFind? g.parents v = none := by
    intro v hv
    obtain ⟨hvn, hpred⟩ := List.mem_filter.mp hv
    rcases hfind : imFind? g.parents v with _ | l
    · rfl
    · exfalso
      rw [hfind] at hpred
      have hl := (hWF.par_entry v l hfind).2.1
      cases l with
      | nil => exact hl rfl
      | cons a rest => simp at hpred
  have hparSet_nil : ∀ v ∈ noParents0 g, parSet g v = [] := by
    intro v hv
    rw [parSet, hstk_none v hv]
    rfl
  refine ⟨List.nodup_nil, ?_, ?_, ?_, ?_, ?_, ?_, ?_, hstk_none,
    hWF.parents_keysnodup, fun c hc => hc, ?_, ?_, ?_⟩
  · intro v hv
    cases hv
  · intro v hv
    cases hv
  · intro v hv
    cases hv
  · exact hWF.nodes_nodup.filter _
  · intro v hv
    exact (List.mem_filter.mp hv).1
  · intro v hv
    exact List.not_mem_nil v
  · intro v hv x hx
    rw [hparSet_nil v hv] at hx
    cases hx
  · intro c l hf
    obtain ⟨h1, h2, -⟩ := hWF.par_entry c l hf
    refine ⟨h1, h2, fun x => ?_⟩
    rw [parSet, hf]
    simp
  · intro c hf x hx
    rw [parSet, hf] at hx
    cases hx
  · intro v hvn hvo hall
    rw [noParents0]
    rw [List.mem_filter]
    refine ⟨hvn, ?_⟩
    rcases hfind : imFind? g.parents v with _ | l
    · rfl
    · exfalso
      obtain ⟨-, h2, -⟩ := hWF.par_entry v l hfind
      obtain ⟨a, ha⟩ := List.exists_mem_of_ne_nil l h2
      have : a ∈ parSet g v := by
        rw [parSet, hfind]
        exact ha
      cases hall a this

theorem kinv_pop {g : PlotGraph} {order : List String} {pm : IMap (List String)}
    {stack : List String} {node : String} (hK : KInv g order pm stack)
    (hlast : stack.getLast? = some node) :
    node ∈ imKeys g.nodes ∧ node ∉ order ∧ (∀ x ∈ parSet g node, x ∈ order)
      ∧ RInv g node order [] pm stack.dropLast := by
  have hne : stack ≠ [] := by
    intro hh
    rw [hh] at hlast
    cases hlast
  have hlast2 : stack.getLast hne = node := by
    have hh := List.getLast?_eq_getLast stack hne
    rw [hlast] at hh
    injection hh with hh2
    exact hh2.symm
  have hdecomp : stack = stack.dropLast ++ [node] := by
    rw [← hlast2]
    exact (List.dropLast_append_getLast hne).symm
  have hnode_mem : node ∈ stack := by
    rw [hdecomp]
    exact List.mem_append.mpr (Or.inr (List.mem_cons_self _ _))
  have hsub : ∀ v ∈ stack.dropLast, v ∈ stack :=
    fun v hv => (List.dropLast_sublist stack).subset hv
  have hnode_nd : node ∉ stack.dropLast := by
    intro hmem
    have hnodup := hK.stk_nodup
    rw [hdecomp] at hnodup
    exact (List.disjoint_of_nodup_append hnodup) hmem (List.mem_cons_self _ _)
  refine ⟨hK.stk_nodes node hnode_mem, hK.stk_not_ord node hnode_mem,
    hK.stk_ready node hnode_mem, ?_⟩
  refine ⟨hK.pm_keysnodup, hK.pm_keys_par, ?_, ?_, ?_, ?_, ?_, ?_, ?_, ?_⟩
  · intro c l hf
    obtain ⟨h1, h2, hiff⟩ := hK.pm_some c l hf
    refine ⟨h1, h2, fun x => ?_⟩
    rw [hiff x]
    constructor
    · rintro ⟨hp, ho⟩
      exact ⟨hp, ho, fun _ => List.not_mem_nil c⟩
    · rintro ⟨hp, ho, -⟩
      exact ⟨hp, ho⟩
  · intro c hf x hx
    exact Or.inl (hK.pm_none c hf x hx)
  · exact hK.stk_nodup.sublist (List.dropLast_sublist stack)
  · intro v hv
    exact hK.stk_nodes v (hsub v hv)
  · intro v hv
    exact ⟨hK.stk_not_ord v (hsub v hv), fun hh => hnode_nd (hh ▸ hv)⟩
  · intro v hv x hx
    exact Or.inl (hK.stk_ready v (hsub v hv) x hx)
  · intro v hv
    exact hK.stk_no_entry v (hsub v hv)
  · intro v hvn hvo hvnn hall
    have hall2 : ∀ x ∈ parSet g v, x ∈ order := by
      intro x hx
      rcases hall x hx with ho | ⟨-, hd⟩
      · exact ho
      · cases hd
    have hvs := hK.complete v hvn hvo hall2
    rw [hdecomp] at hvs
    rcases List.mem_append.mp hvs with h1 | h2
    · exact h1
    · rw [List.mem_singleton] at h2
      exact absurd h2 hvnn

theorem rinv_close {g : PlotGraph} (hWF : WFGraph g) {order : List String}
    {pm pm2 : IMap (List String)} {stack stack2 : List String} {node : String}
    (hnode_nodes : node ∈ imKeys g.nodes) (hnode_not_ord : node ∉ order)
    (hnode_ready : ∀ x ∈ parSet g node, x ∈ order)
    (hK : KInv g order pm stack)
    (hR : RInv g node order (childSet g node) pm2 stack2) :
    KInv g (order ++ [node]) pm2 stack2 := by
  have hchild_mem : ∀ c, node ∈ parSet g c → c ∈ childSet g node := by
    intro c hc
    exact (hWF.symm node c).mp hc
  refine ⟨?_, ?_, ?_, ?_, hR.stk_nodup, hR.stk_nodes, ?_, ?_, hR.stk_no_entry,
    hR.pm_keysnodup, hR.pm_keys_par, ?_, ?_, ?_⟩
  · rw [List.nodup_append]
    refine ⟨hK.ord_nodup, List.nodup_singleton node, ?_⟩
    intro a ha hb
    rw [List.mem_singleton] at hb
    rw [hb] at ha
    exact hnode_not_ord ha
  · intro v hv
    rcases List.mem_append.mp hv with h1 | h2
    · exact hK.ord_nodes v h1
    · rw [List.mem_singleton] at h2
      rw [h2]
      exact hnode_nodes
  · intro v hv x hx
    rcases List.mem_append.mp hv with h1 | h2
    · exact List.mem_append.mpr (Or.inl (hK.ord_closed v h1 x hx))
    · rw [List.mem_singleton] at h2
      rw [h2] at hx
      exact List.mem_append.mpr (Or.inl (hnode_ready x hx))
  · intro v hv
    rcases List.mem_append.mp hv with h1 | h2
    · exact hK.ord_sup v h1
    · rw [List.mem_singleton] at h2
      rw [h2]
      exact Sup.mk node hnode_nodes (fun p hp => hK.ord_sup p (hnode_ready p hp))
  · intro v hv
    obtain ⟨ho, hn⟩ := hR.stk_not_ord v hv
    intro hmem
    rcases List.mem_append.mp hmem with h1 | h2
    · exact ho h1
    · rw [List.mem_singleton] at h2
      exact hn h2
  · intro v hv x hx
    rcases hR.stk_ready v hv x hx with ho | hn
    · exact List.mem_append.mpr (Or.inl ho)
    · rw [hn]
      exact List.mem_append.mpr (Or.inr (List.mem_cons_self _ _))
  · intro c l hf
    obtain ⟨h1, h2, hiff⟩ := hR.pm_some c l hf
    refine ⟨h1, h2, fun x => ?_⟩
    rw [hiff x]
    constructor
    · rintro ⟨hp, ho, hC⟩
      refine ⟨hp, ?_⟩
      intro hmem
      rcases List.mem_append.mp hmem with h1q | h2q
      · exact ho h1q
      · rw [List.mem_singleton] at h2q
        exact (hC h2q) (hchild_mem c (h2q ▸ hp))
    · rintro ⟨hp, ho⟩
      have ho1 : x ∉ order := fun hh => ho (List.mem_append.mpr (Or.inl hh))
      have ho2 : x ≠ node := by
        intro hh
        refine ho (List.mem_append.mpr (Or.inr ?_))
        rw [hh]
        exact List.mem_cons_self _ _
      exact ⟨hp, ho1, fun hh => absurd hh ho2⟩
  · intro c hf x hx
    rcases hR.pm_none c hf x hx with ho | ⟨hn, -⟩
    · exact List.mem_append.mpr (Or.inl ho)
    · rw [hn]
      exact List.mem_append.mpr (Or.inr (List.mem_cons_self _ _))
  · intro v hvn hvo hall
    have hvo1 : v ∉ order := fun hh => hvo (List.mem_append.mpr (Or.inl hh))
    have hvnn : v ≠ node := by
      intro hh
      refine hvo (List.mem_append.mpr (Or.inr ?_))
      rw [hh]
      exact List.mem_cons_self _ _
    refine hR.complete v hvn hvo1 hvnn ?_
    intro x hx
    rcases List.mem_append.mp (hall x hx) with h1 | h2
    · exact Or.inl h1
    · rw [List.mem_singleton] at h2
      exact Or.inr ⟨h2, hchild_mem v (h2 ▸ hx)⟩

theorem kahnLoop_spec (g : PlotGraph) (hWF : WFGraph g) :
    ∀ (fuel : Nat) (order : List String) (pm : IMap (List String)) (stack : List String),
      KInv g order pm stack →
      g.nodes.length ≤ fuel + order.length →
      (∃ order2, kahnLoop g.nodes.length g.children fuel order pm stack = .done order2
          ∧ ∀ v ∈ imKeys g.nodes, Sup g v)
      ∨ (∃ names, kahnLoop g.nodes.length g.children fuel order pm stack = .cycles names
          ∧ (∃ v ∈ imKeys g.nodes, ¬ Sup g v)
          ∧ ∀ c, (c ∈ names ↔ ∃ x ∈ parSet g c, ¬ Sup g x)) := by
  intro fuel
  induction fuel with
  | zero =>
    intro order pm stack hK hfuel
    have hdone : g.nodes.length ≤ order.length := by omega
    left
    refine ⟨order, ?_, ?_⟩
    · rw [kahnLoop, if_pos hdone]
    · intro v hv
      exact hK.ord_sup v (order_covers hK.ord_nodup hK.ord_nodes hdone v hv)
  | succ fuel ih =>
    intro order pm stack hK hfuel
    by_cases hdone : g.nodes.length ≤ order.length
    · left
      refine ⟨order, ?_, ?_⟩
      · rw [kahnLoop, if_pos hdone]
      · intro v hv
        exact hK.ord_sup v (order_covers hK.ord_nodup hK.ord_nodes hdone v hv)
    · rcases hlast : stack.getLast? with _ | node
      · have hstk_nil : stack = [] := by
          cases stack with
          | nil => rfl
          | cons a rest =>
            exfalso
            rw [List.getLast?_eq_getLast (a :: rest) (by simp)] at hlast
            cases hlast
        subst hstk_nil
        right
        have hsup_ord : ∀ x, Sup g x → x ∈ order := sup_mem_order hK
        have hmissing : ∃ v ∈ imKeys g.nodes, v ∉ order := by
          by_contra hno
          push_neg at hno
          have hsp : (imKeys g.nodes).Subperm order :=
            List.subperm_of_subset hWF.nodes_nodup hno
          have hlen := hsp.length_le
          rw [imKeys, List.length_map] at hlen
          exact hdone hlen
        refine ⟨cyclesReport pm, ?_, ?_, ?_⟩
        · rw [kahnLoop, if_neg hdone]
          rfl
        · obtain ⟨v, hv, hvo⟩ := hmissing
          exact ⟨v, hv, fun hs => hvo (hsup_ord v hs)⟩
        · intro c
          rw [cyclesReport_mem hK.pm_keysnodup]
          constructor
          · rintro ⟨l, hf, hl⟩
            obtain ⟨-, -, hiff⟩ := hK.pm_some c l hf
            obtain ⟨x, hx⟩ := List.exists_mem_of_ne_nil l hl
            obtain ⟨hp, ho⟩ := (hiff x).mp hx
            exact ⟨x, hp, fun hs => ho (hsup_ord x hs)⟩
          · rintro ⟨x, hx, hxs⟩
            have hxo : x ∉ order := fun hh => hxs (hK.ord_sup x hh)
            rcases hf : imFind? pm c with _ | l
            · exact absurd (hK.pm_none c hf x hx) hxo
            · obtain ⟨-, -, hiff⟩ := hK.pm_some c l hf
              have hxl : x ∈ l := (hiff x).mpr ⟨hx, hxo⟩
              exact ⟨l, rfl, List.ne_nil_of_mem hxl⟩
      · obtain ⟨hnode_nodes, hnode_not_ord, hnode_ready, hRinit⟩ := kinv_pop hK hlast
        obtain ⟨pm2, stack2, hfold, hR2⟩ := relaxFold_spec g hWF order node
          hnode_not_ord hnode_ready hK.ord_closed (childSet g node) [] pm
          stack.dropLast rfl hRinit
        rw [List.nil_append] at hR2
        have hK2 : KInv g (order ++ [node]) pm2 stack2 :=
          rinv_close hWF hnode_nodes hnode_not_ord hnode_ready hK hR2
        have hfuel2 : g.nodes.length ≤ fuel + (order ++ [node]).length := by
          rw [List.length_append, List.length_singleton]
          omega
        have hstep : kahnLoop g.nodes.length g.children (fuel + 1) order pm stack
            = kahnLoop g.nodes.length g.children fuel (order ++ [node]) pm2 stack2 := by
          rw [kahnLoop, if_neg hdone, hlast]
          have hrc : relaxChildren true g.children node pm stack.dropLast
              = some (pm2, stack2) := by
            rw [relaxChildren]
            exact hfold
          dsimp only
          rw [hrc]
        rw [hstep]
        exact ih (order ++ [node]) pm2 stack2 hK2 hfuel2

theorem sup_of_reaches {g : PlotGraph} {u v : String} (hr : reaches g u v) :
    Sup g v → Sup g u := by
  induction hr with
  | refl => exact id
  | tail h1 h2 ih =>
    intro hs
    cases hs with
    | mk c hc hp => exact ih (hp _ h2)

theorem not_sup_of_onCycle {g : PlotGraph} {u : String} (hs : Sup g u) :
    ¬ onCycle g u := by
  induction hs with
  | mk v hv hp ih =>
    intro hc
    obtain ⟨p, hreach, hrel⟩ := (Relation.TransGen.tail'_iff).mp hc
    exact ih p hrel (Relation.TransGen.head'_iff.mpr ⟨v, hrel, hreach⟩)

theorem descend_to_cycle {g : PlotGraph} (P : String → Prop) (keys : List String)
    (hfin : ∀ x, P x → x ∈ keys)
    (hstep : ∀ x, P x → ∃ p, P p ∧ rel g p x) :
    ∀ v, P v → ∃ u, onCycle g u ∧ reaches g u v := by
  intro v hv
  have hstep2 : ∀ x : {x : String // P x}, ∃ p : {x : String // P x}, rel g p.1 x.1 := by
    rintro ⟨x, hx⟩
    obtain ⟨p, hp, hr⟩ := hstep x hx
    exact ⟨⟨p, hp⟩, hr⟩
  choose f hf using hstep2
  have hchain : ∀ n : Nat, rel g (f^[n + 1] ⟨v, hv⟩).1 (f^[n] ⟨v, hv⟩).1 := by
    intro n
    rw [Function.iterate_succ_apply']
    exact hf (f^[n] ⟨v, hv⟩)
  have hreach : ∀ n : Nat, reaches g (f^[n] ⟨v, hv⟩).1 v := by
    intro n
    induction n with
    | zero => exact Relation.ReflTransGen.refl
    | succ n ihn => exact Relation.ReflTransGen.head (hchain n) ihn
  have htrans : ∀ (d i : Nat),
      Relation.TransGen (rel g) (f^[i + d + 1] ⟨v, hv⟩).1 (f^[i] ⟨v, hv⟩).1 := by
    intro d
    induction d with
    | zero =>
      intro i
      exact Relation.TransGen.single (hchain i)
    | succ d ihd =>
      intro i
      exact Relation.TransGen.head (hchain (i + d + 1)) (ihd i)
  have hmaps : ∀ n ∈ Finset.range (keys.length + 1),
      (f^[n] ⟨v, hv⟩).1 ∈ keys.toFinset := by
    intro n _
    exact List.mem_toFinset.mpr (hfin _ (f^[n] ⟨v, hv⟩).2)
  have hcard : keys.toFinset.card < (Finset.range (keys.length + 1)).card := by
    rw [Finset.card_range]
    have hle := keys.toFinset_card_le
    omega
  obtain ⟨a, ha, b, hb, hab, heq⟩ :=
    Finset.exists_ne_map_eq_of_card_lt_of_maps_to hcard hmaps
  have hij : ∃ i j, i < j ∧ (f^[i] ⟨v, hv⟩).1 = (f^[j] ⟨v, hv⟩).1 := by
    rcases lt_or_gt_of_ne hab with h | h
    · exact ⟨a, b, h, heq⟩
    · exact ⟨b, a, h, heq.symm⟩
  obtain ⟨i, j, hlt, hfeq⟩ := hij
  refine ⟨(f^[j] ⟨v, hv⟩).1, ?_, hreach j⟩
  have hd : i + (j - i - 1) + 1 = j := by omega
  have ht := htrans (j - i - 1) i
  rw [hd] at ht
  rw [hfeq] at ht
  exact ht

theorem not_sup_iff_cycle_ancestor {g : PlotGraph}
    (hpar : ∀ c x, x ∈ parSet g c → x ∈ imKeys g.nodes) :
    ∀ v ∈ imKeys g.nodes, (¬ Sup g v ↔ ∃ u, onCycle g u ∧ reaches g u v) := by
  intro v hv
  constructor
  · intro hns
    refine descend_to_cycle (fun x => x ∈ imKeys g.nodes ∧ ¬ Sup g x)
      (imKeys g.nodes) (fun x hx => hx.1) ?_ v ⟨hv, hns⟩
    rintro x ⟨hxn, hxs⟩
    by_cases hall : ∀ p ∈ parSet g x, Sup g p
    · exact absurd (Sup.mk x hxn hall) hxs
    · push_neg at hall
      obtain ⟨p, hp, hps⟩ := hall
      exact ⟨p, ⟨hpar x p hp, hps⟩, hp⟩
  · rintro ⟨u, hcyc, hre⟩ hs
    exact not_sup_of_onCycle (sup_of_reaches hre hs) hcyc

theorem validate_no_cycles_spec {g : PlotGraph} (hWF : WFGraph g) :
    ((∀ v ∈ imKeys g.nodes, Sup g v) → validate_no_cycles g = .ok ())
    ∧ ((∃ v ∈ imKeys g.nodes, ¬ Sup g v) →
        ∃ names, validate_no_cycles g = .err (.systemSetupCauseless (cycleMsg names))
          ∧ ∀ c, (c ∈ names ↔ ∃ x ∈ parSet g c, ¬ Sup g x)) := by
  have hK0 := kinvInit g hWF
  have hfuel0 : g.nodes.length ≤ g.nodes.length + ([] : List String).length := by
    simp
  have hspec := kahnLoop_spec g hWF g.nodes.length [] g.parents (noParents0 g) hK0 hfuel0
  constructor
  · intro hall
    rcases hspec with ⟨order2, heq, -⟩ | ⟨names, heq, ⟨v, hv, hns⟩, -⟩
    · rw [validate_no_cycles, heq]
    · exact absurd (hall v hv) hns
  · rintro ⟨v, hv, hns⟩
    rcases hspec with ⟨order2, heq, hall⟩ | ⟨names, heq, -, hiff⟩
    · exact absurd (hall v hv) hns
    · exact ⟨names, by rw [validate_no_cycles, heq], hiff⟩

theorem rel_elim {g : PlotGraph} {x y : String} (h : rel g x y) :
    ∃ e ∈ g.parents, e.1 = y ∧ x ∈ e.2 := by
  rw [rel, parSet] at h
  rcases hf : imFind? g.parents y with _ | l
  · rw [hf] at h
    cases h
  · rw [hf] at h
    exact ⟨(y, l), mem_of_imFind? hf, rfl, h⟩

theorem acyclic_of_rank {g : PlotGraph} (f : String → Nat)
    (h : ∀ x y, rel g x y → f x < f y) : acyclicG g := by
  intro u hu
  have hmono : ∀ a b, Relation.TransGen (rel g) a b → f a < f b := by
    intro a b hab
    induction hab with
    | single h1 => exact h _ _ h1
    | tail h1 h2 ih => exact lt_trans ih (h _ _ h2)
  exact lt_irrefl (f u) (hmono u u hu)

theorem validateDepsGo_ok_iff (nodes : IMap Step) (children : IMap (List String)) :
    ∀ l, validateDepsGo nodes children l = .ok ()
      ↔ ∀ e ∈ l, imContains nodes e.1 = true := by
  intro l
  induction l with
  | nil => simp [validateDepsGo]
  | cons e rest ih =>
    by_cases h : imContains nodes e.1 = true
    · rw [validateDepsGo, if_pos h, ih]
      simp [h]
    · rw [validateDepsGo, if_neg h]
      constructor
      · intro hh
        cases hh
      · intro hall
        exact absurd (hall e (List.mem_cons_self _ _)) h

theorem validateDepsGo_err (nodes : IMap Step) (children : IMap (List String)) :
    ∀ l, (∃ e ∈ l, imContains nodes e.1 = false) →
      ∃ e, e ∈ l ∧ imContains nodes e.1 = false
        ∧ validateDepsGo nodes children l
          = .err (.systemSetupCauseless (depsMsg ((imFind? children e.1).getD []) e.1)) := by
  intro l
  induction l with
  | nil =>
    rintro ⟨e, he, _⟩
    cases he
  | cons e rest ih =>
    rintro ⟨e0, he0, hbad⟩
    by_cases h : imContains nodes e.1 = true
    · have hrest : ∃ x ∈ rest, imContains nodes x.1 = false := by
        rcases List.mem_cons.mp he0 with h1 | h2
        · rw [h1] at hbad
          rw [hbad] at h
          cases h
        · exact ⟨e0, h2, hbad⟩
      obtain ⟨e1, he1, hb1, heq⟩ := ih hrest
      refine ⟨e1, List.mem_cons_of_mem _ he1, hb1, ?_⟩
      rw [validateDepsGo, if_pos h]
      exact heq
    · refine ⟨e, List.mem_cons_self _ _, by simpa using h, ?_⟩
      rw [validateDepsGo, if_neg h]

theorem referencersIn_ne_nil_iff (steps : IMap Step) (t : String) :
    referencersIn steps t ≠ [] ↔ ∃ e ∈ steps, t ∈ stepPipeRefs e.2 := by
  rw [referencersIn, Ne, List.filterMap_eq_nil_iff]
  constructor
  · intro h
    by_contra hno
    push_neg at hno
    exact h (fun e he => by
      rw [if_neg (fun hmem => hno e he hmem)])
  · rintro ⟨e, he, hmem⟩ hall
    have := hall e he
    rw [if_pos hmem] at this
    cases this

theorem mem_allRefs_iff (p : Plot) (t : String) :
    t ∈ allRefs p ↔ ∃ e ∈ p.steps, t ∈ stepPipeRefs e.2 := by
  rw [allRefs]
  simp [List.mem_flatMap]

/-! ## Claim C6: dependency validation -/

/-- C6: `validate_dependencies_exist` returns `Ok` iff every non-empty
`Pipe.step_name` occurring in any step input is a key of `plot.steps`; on
failure it returns `SystemSetupCauseless` naming an unknown referenced
step together with the steps that reference it, joined by a quoted comma
separator in insertion order (`referencers` lists them in step insertion
order). -/
theorem c6_dependency_validation (p : Plot) (g : PlotGraph)
    (hg : plotGraphNew p = some g) (hk : (imKeys p.steps).Nodup) :
    (validate_dependencies_exist g = .ok () ↔ ∀ r ∈ allRefs p, r ∈ imKeys p.steps)
    ∧ ((∃ r ∈ allRefs p, r ∉ imKeys p.steps) →
        ∃ unknown, unknown ∈ allRefs p ∧ unknown ∉ imKeys p.steps
          ∧ validate_dependencies_exist g
            = .err (.systemSetupCauseless (depsMsg (referencers p unknown) unknown))) := by
  obtain ⟨hnodes, _, hcnodup, _, hcspec⟩ := plotGraphNew_spec p g hg hk
  have hcontains : ∀ r, imContains p.steps r = true ↔ r ∈ imKeys p.steps := by
    intro r
    rw [imContains]
    exact imFind?_isSome_iff p.steps r
  have hmem_children : ∀ r, r ∈ allRefs p ↔ ∃ l, imFind? g.children r = some l := by
    intro r
    rw [mem_allRefs_iff, ← referencersIn_ne_nil_iff, hcspec, childrenSpec]
    by_cases h : referencersIn p.steps r = []
    · simp [h]
    · simp [h]
  constructor
  · rw [validate_dependencies_exist, hnodes, validateDepsGo_ok_iff]
    constructor
    · intro hall r hr
      obtain ⟨l, hl⟩ := (hmem_children r).mp hr
      have hmem : (r, l) ∈ g.children := imFind?_some_mem hl
      exact (hcontains r).mp (hall (r, l) hmem)
    · intro hall e he
      have hfind : imFind? g.children e.1 = some e.2 := mem_imFind? hcnodup he
      have hall_ref : e.1 ∈ allRefs p := (hmem_children e.1).mpr ⟨e.2, hfind⟩
      exact (hcontains e.1).mpr (hall e.1 hall_ref)
  · rintro ⟨r, hr, hrko⟩
    obtain ⟨l, hl⟩ := (hmem_children r).mp hr
    have hbadmem : ∃ e ∈ g.children, imContains g.nodes e.1 = false := by
      refine ⟨(r, l), imFind?_some_mem hl, ?_⟩
      rw [hnodes]
      rcases hb : imContains p.steps r with _ | _
      · rfl
      · exact absurd ((hcontains r).mp hb) hrko
    obtain ⟨e, he, hbad, heq⟩ := validateDepsGo_err g.nodes g.children g.children hbadmem
    have hfind : imFind? g.children e.1 = some e.2 := mem_imFind? hcnodup he
    have hval : e.2 = referencers p e.1 := by
      have := hfind
      rw [hcspec, childrenSpec] at this
      by_cases hnil : referencersIn p.steps e.1 = []
      · rw [if_pos hnil] at this
        cases this
      · rw [if_neg hnil] at this
        injection this with hv
        rw [← hv]
        rfl
    refine ⟨e.1, ?_, ?_, ?_⟩
    · exact (hmem_children e.1).mpr ⟨e.2, hfind⟩
    · intro hmem
      rw [hnodes] at hbad
      rw [(hcontains e.1).mpr hmem] at hbad
      cases hbad
    · rw [validate_dependencies_exist, heq, hfind]
      show _ = Res.err (.systemSetupCauseless (depsMsg (referencers p e.1) e.1))
      rw [← hval]
      rfl

/-- Witness for C6: a plot whose pipe targets all exist validates, and the
spec scenario plot piping from the unknown step `ghost` fails naming
`ghost` and its referencing step. -/
theorem c6_witness :
    validate_dependencies_exist
      ⟨[("a", Step.protoformula ⟨some ⟨"i", true⟩, [], Action.echo, []⟩),
        ("b", Step.protoformula
          ⟨some ⟨"i", true⟩, [("/in", PlotInput.pipe ⟨"a", "out"⟩)], Action.echo, []⟩)],
       [("b", ["a"])], [("a", ["b"])]⟩ = .ok ()
    ∧ (∃ unknown,
        unknown ∈ allRefs ⟨none,
          [("a", Step.protoformula
            ⟨some ⟨"i", true⟩, [("/in", PlotInput.pipe ⟨"ghost", "out"⟩)], Action.echo, []⟩)], []⟩
        ∧ unknown ∉ imKeys
            ([("a", Step.protoformula
              ⟨some ⟨"i", true⟩, [("/in", PlotInput.pipe ⟨"ghost", "out"⟩)], Action.echo, []⟩)]
              : IMap Step)
        ∧ validate_dependencies_exist
            ⟨[("a", Step.protoformula
              ⟨some ⟨"i", true⟩, [("/in", PlotInput.pipe ⟨"ghost", "out"⟩)], Action.echo, []⟩)],
             [("a", ["ghost"])], [("ghost", ["a"])]⟩
          = .err (.systemSetupCauseless
              (depsMsg (referencers ⟨none,
                [("a", Step.protoformula
                  ⟨some ⟨"i", true⟩, [("/in", PlotInput.pipe ⟨"ghost", "out"⟩)], Action.echo, []⟩)],
                []⟩ unknown) unknown))) := by
  constructor
  · exact (c6_dependency_validation
      ⟨some ⟨"i", true⟩,
        [("a", Step.protoformula ⟨some ⟨"i", true⟩, [], Action.echo, []⟩),
         ("b", Step.protoformula
           ⟨some ⟨"i", true⟩, [("/in", PlotInput.pipe ⟨"a", "out"⟩)], Action.echo, []⟩)], []⟩
      ⟨[("a", Step.protoformula ⟨some ⟨"i", true⟩, [], Action.echo, []⟩),
        ("b", Step.protoformula
          ⟨some ⟨"i", true⟩, [("/in", PlotInput.pipe ⟨"a", "out"⟩)], Action.echo, []⟩)],
       [("b", ["a"])], [("a", ["b"])]⟩
      (by decide) (by decide)).1.mpr (by decide)
  · exact (c6_dependency_validation
      ⟨none,
        [("a", Step.protoformula
          ⟨some ⟨"i", true⟩, [("/in", PlotInput.pipe ⟨"ghost", "out"⟩)], Action.echo, []⟩)], []⟩
      ⟨[("a", Step.protoformula
          ⟨some ⟨"i", true⟩, [("/in", PlotInput.pipe ⟨"ghost", "out"⟩)], Action.echo, []⟩)],
       [("a", ["ghost"])], [("ghost", ["a"])]⟩
      (by decide) (by decide)).2 ⟨"ghost", by decide, by decide⟩

/-! ## Script materialization (claim C7 groundwork) -/

theorem setupFold_spec (scriptDir : String) :
    ∀ (contents : List String) (k : Nat) (files : IMap String) (c : String),
      imFind? files (scriptDir ++ "/run") = some c →
      (imFind? ((List.enumFrom k contents).foldl (setupScriptStep scriptDir) files)
          (scriptDir ++ "/run") = some (c ++ runContentFrom k contents))
      ∧ (∀ j (hj : j < contents.length),
          imFind? ((List.enumFrom k contents).foldl (setupScriptStep scriptDir) files)
            (entryPath scriptDir (k + j)) = some (contents.get ⟨j, hj⟩ ++ "\n"))
      ∧ (∀ path, path ≠ scriptDir ++ "/run" → (∀ j : Nat, path ≠ entryPath scriptDir (k + j)) →
          imFind? ((List.enumFrom k contents).foldl (setupScriptStep scriptDir) files) path
            = imFind? files path) := by
  intro contents
  induction contents with
  | nil =>
    intro k files c hrun
    refine ⟨?_, ?_, ?_⟩
    · simpa [List.enumFrom, runContentFrom] using hrun
    · intro j hj
      simp at hj
    · intro path _ _; simp [List.enumFrom]
  | cons line rest ih =>
    intro k files c hrun
    have hstep : (List.enumFrom k (line :: rest)).foldl (setupScriptStep scriptDir) files
        = (List.enumFrom (k + 1) rest).foldl (setupScriptStep scriptDir)
            (setupScriptStep scriptDir files (k, line)) := by
      simp [List.enumFrom]
    have hne_run : entryPath scriptDir k ≠ scriptDir ++ "/run" := entryPath_ne_runPath scriptDir k
    have hfiles1 :
        imFind? (imInsert files (entryPath scriptDir k) (line ++ "\n")) (scriptDir ++ "/run")
          = some c := by
      rw [imFind?_imInsert_ne _ _ (fun hh => hne_run hh.symm)]
      exact hrun
    have hstep_eq : setupScriptStep scriptDir files (k, line)
        = imInsert (imInsert files (entryPath scriptDir k) (line ++ "\n"))
            (scriptDir ++ "/run") (c ++ runLine k) := by
      show imInsert (imInsert files (entryPath scriptDir k) (line ++ "\n")) (scriptDir ++ "/run")
          ((imFind? (imInsert files (entryPath scriptDir k) (line ++ "\n"))
            (scriptDir ++ "/run")).getD ""
            ++ ". " ++ container_script_path ++ "/" ++ ("entry-" ++ toString k) ++ "\n")
        = imInsert (imInsert files (entryPath scriptDir k) (line ++ "\n"))
            (scriptDir ++ "/run") (c ++ runLine k)
      rw [hfiles1]
      simp [runLine, String.append_assoc]
    have hrun2 : imFind? (setupScriptStep scriptDir files (k, line)) (scriptDir ++ "/run")
        = some (c ++ runLine k) := by
      rw [hstep_eq]
      exact imFind?_imInsert_self _ _ _
    obtain ⟨ihrun, ihentry, ihpres⟩ :=
      ih (k + 1) (setupScriptStep scriptDir files (k, line)) (c ++ runLine k) hrun2
    refine ⟨?_, ?_, ?_⟩
    · rw [hstep, ihrun, runContentFrom, String.append_assoc]
    · intro j hj
      rcases j with _ | j
      · rw [hstep]
        have hpres := ihpres (entryPath scriptDir k) hne_run
          (fun j hj => by
            have := entryPath_inj hj
            omega)
        have h0 : k + 0 = k := rfl
        rw [h0, hpres, hstep_eq, imFind?_imInsert_ne _ _ hne_run, imFind?_imInsert_self]
        simp
      · have hj' : j < rest.length := by simpa using hj
        have hrec := ihentry j hj'
        rw [hstep]
        have harith : k + (j + 1) = (k + 1) + j := by omega
        rw [harith, hrec]
        simp
    · intro path hprun hpent
      rw [hstep, ihpres path hprun (fun j => by
        have := hpent (j + 1)
        have harith : k + (j + 1) = (k + 1) + j := by omega
        rwa [harith] at this)]
      rw [hstep_eq, imFind?_imInsert_ne _ _ hprun,
        imFind?_imInsert_ne _ _ (fun hh => hpent 0 (by simpa using hh))]

/-! ## Claim C7: script materialization -/

/-- C7: for a `Script` action with contents `l_0 .. l_{k-1}`, `setup_script`
creates for each index `n` the file `script_dir/entry-<n>` containing
exactly `l_n` followed by a newline, writes into `script_dir/run` one
newline-terminated line `. /.warpforge.container/script/entry-<n>` per
entry in index order, and returns the command vector
`[interpreter, "/.warpforge.container/script/run"]`. -/
theorem c7_script_materialization (ersatzDir interpreter : String) (contents : List String)
    (mounts : IMap MountSpec) (cmd : List String) (mountsOut : IMap MountSpec)
    (files : IMap String)
    (h : setup_script ersatzDir false interpreter contents mounts = .ok (cmd, mountsOut, files)) :
    cmd = [interpreter, container_script_path ++ "/run"]
    ∧ imFind? files (ersatzDir ++ "/script" ++ "/run") = some (runContentFrom 0 contents)
    ∧ ∀ (n : Nat) (hn : n < contents.length),
        imFind? files (entryPath (ersatzDir ++ "/script") n)
          = some (contents.get ⟨n, hn⟩ ++ "\n") := by
  simp only [setup_script, Bool.false_eq_true, if_false, Res.ok.injEq, Prod.mk.injEq] at h
  obtain ⟨hcmd, hmounts, hfiles⟩ := h
  have hinit : imFind? (imInsert ([] : IMap String) (ersatzDir ++ "/script" ++ "/run") "")
      (ersatzDir ++ "/script" ++ "/run") = some "" := imFind?_imInsert_self _ _ _
  have hspec := setupFold_spec (ersatzDir ++ "/script") contents 0
    (imInsert [] (ersatzDir ++ "/script" ++ "/run") "") "" hinit
  have henum : contents.enum = List.enumFrom 0 contents := rfl
  have hnil : ("" ++ runContentFrom 0 contents : String) = runContentFrom 0 contents := by
    apply String.ext
    rw [String.data_append]
    rfl
  refine ⟨hcmd.symm, ?_, ?_⟩
  · rw [← hfiles, henum, hspec.1, hnil]
  · intro n hn
    have := hspec.2.1 n hn
    rw [← hfiles, henum]
    simpa using this

/-- Witness for C7 at the spec scenario: interpreter `/bin/sh` with the two
lines `echo a` and `echo b`. -/
theorem c7_witness :
    setup_script "/e" false "/bin/sh" ["echo a", "echo b"] []
      = .ok (["/bin/sh", container_script_path ++ "/run"],
          [(container_script_path,
            MountSpec.new_bind ("/e" ++ "/script") container_script_path false)],
          [("/e" ++ "/script" ++ "/run",
            ". /.warpforge.container/script/entry-0\n. /.warpforge.container/script/entry-1\n"),
           (entryPath ("/e" ++ "/script") 0, "echo a\n"),
           (entryPath ("/e" ++ "/script") 1, "echo b\n")])
    ∧ imFind?
        [(("/e" ++ "/script" ++ "/run" : String),
          (". /.warpforge.container/script/entry-0\n. /.warpforge.container/script/entry-1\n" : String)),
         (entryPath ("/e" ++ "/script") 0, "echo a\n"),
         (entryPath ("/e" ++ "/script") 1, "echo b\n")]
        ("/e" ++ "/script" ++ "/run") = some (runContentFrom 0 ["echo a", "echo b"])
    ∧ imFind?
        [(("/e" ++ "/script" ++ "/run" : String),
          (". /.warpforge.container/script/entry-0\n. /.warpforge.container/script/entry-1\n" : String)),
         (entryPath ("/e" ++ "/script") 0, "echo a\n"),
         (entryPath ("/e" ++ "/script") 1, "echo b\n")]
        (entryPath ("/e" ++ "/script") 1) = some ("echo b" ++ "\n") := by
  have h := c7_script_materialization "/e" "/bin/sh" ["echo a", "echo b"] []
    ["/bin/sh", container_script_path ++ "/run"]
    [(container_script_path, MountSpec.new_bind ("/e" ++ "/script") container_script_path false)]
    [(("/e" ++ "/script" ++ "/run" : String),
      (". /.warpforge.container/script/entry-0\n. /.warpforge.container/script/entry-1\n" : String)),
     (entryPath ("/e" ++ "/script") 0, "echo a\n"),
     (entryPath ("/e" ++ "/script") 1, "echo b\n")]
    (by decide)
  exact ⟨by decide, h.2.1, by simpa using h.2.2 1 (by decide)⟩

/-! ## Claim C5: script mount registration -/

/-- Counterexample for C5: at a concrete script action, the readonly flag
of the mount that `setup_script` registers at
`/.warpforge.container/script` is `false` (a read-write bind mount), not
`true` as claimed. -/
theorem c5_counterexample :
    (match setup_script "/e" false "/bin/sh" [] [] with
     | .ok (_, mounts, _) => (imFind? mounts container_script_path).map MountSpec.readonly
     | _ => none) = some false := by decide

/-- Amended C5: for every `Script` action, `setup_script` registers a bind
mount of the host script directory at sandbox path
`/.warpforge.container/script` whose readonly flag is `false` (the source
passes `false` to `MountSpec::new_bind`, so the script mount is
read-write). -/
theorem c5_amended (ersatzDir interpreter : String) (contents : List String)
    (mounts : IMap MountSpec) (cmd : List String) (mountsOut : IMap MountSpec)
    (files : IMap String)
    (h : setup_script ersatzDir false interpreter contents mounts = .ok (cmd, mountsOut, files)) :
    imFind? mountsOut container_script_path
      = some (MountSpec.new_bind (ersatzDir ++ "/script") container_script_path false) := by
  simp only [setup_script, Bool.false_eq_true, if_false, Res.ok.injEq, Prod.mk.injEq] at h
  rw [← h.2.1]
  exact imFind?_imInsert_self _ _ _

/-- Witness for the amended C5 at a concrete script action. -/
theorem c5_witness :
    imFind? [(container_script_path,
        MountSpec.new_bind ("/e" ++ "/script") container_script_path false)]
      container_script_path
      = some (MountSpec.new_bind ("/e" ++ "/script") container_script_path false) := by
  exact c5_amended "/e" "/bin/sh" [] []
    ["/bin/sh", container_script_path ++ "/run"]
    [(container_script_path, MountSpec.new_bind ("/e" ++ "/script") container_script_path false)]
    [(("/e" ++ "/script" ++ "/run" : String), ("" : String))]
    (by decide)

/-! ## Claim C8: exit code handling -/

/-- C8: `run_formula` succeeds exactly when the captured exit code is
`Some(0)`; for every other value, including `None`, it returns
`SystemRuntimeError` whose cause stringifies to the numeric code, or to
the literal `"None"` when no exit code was received. -/
theorem c8_exit_codes :
    (∀ code : Option Int, run_formula_exit code = .ok () ↔ code = some 0)
    ∧ (∀ code : Option Int, code ≠ some 0 →
        run_formula_exit code
          = .err (.systemRuntimeError "container terminated non-zero exit code"
              (match code with
               | none => "None"
               | some c => toString c))) := by
  constructor
  · intro code
    match code with
    | none => simp [run_formula_exit]
    | some c =>
      by_cases hc : c = 0
      · subst hc; simp [run_formula_exit]
      · simp [run_formula_exit, hc]
  · intro code hcode
    match code with
    | none => simp [run_formula_exit]
    | some c =>
      have hc : c ≠ 0 := fun h => hcode (by rw [h])
      simp [run_formula_exit, hc]

/-- Witness for C8 at the spec scenario: exit code 7 yields a
`SystemRuntimeError` whose cause stringifies to `"7"`; `None` yields the
literal `"None"`; 0 succeeds. -/
theorem c8_witness :
    run_formula_exit (some 7)
      = .err (.systemRuntimeError "container terminated non-zero exit code" "7")
    ∧ run_formula_exit none
      = .err (.systemRuntimeError "container terminated non-zero exit code" "None")
    ∧ run_formula_exit (some 0) = .ok () := by
  refine ⟨?_, ?_, ?_⟩
  · simpa using c8_exit_codes.2 (some 7) (by decide)
  · simpa using c8_exit_codes.2 none (by decide)
  · exact (c8_exit_codes.1 (some 0)).mpr rfl

/-! ## Claim C1: image selection in run_step -/

/-- Probe for C1 at a failing input: when both the plot and the step carry
an image, the built formula uses the plot-level image (the source computes
`self.plot.image.as_ref().or(step.image.as_ref())`, and `Option::or`
prefers its receiver), contradicting the claimed step-over-plot override;
the error case with both images absent does produce exactly
`invalid plot (step 'x'): image required`. -/
theorem c1_code_bug_probe :
    runStepFormula ⟨some ⟨"plot-img", true⟩, [], []⟩ "/t" "x"
      (Step.protoformula ⟨some ⟨"step-img", true⟩, [], Action.echo, []⟩)
      = .ok ⟨⟨"plot-img", true⟩, [], Action.echo, []⟩
    ∧ runStepFormula ⟨none, [], []⟩ "/t" "x"
      (Step.protoformula ⟨none, [], Action.echo, []⟩)
      = .err (.systemSetupCauseless (imageRequiredMsg "x")) := by
  exact ⟨by decide, by decide⟩

/-! ## Claim C3: formula input classification -/

/-- Counterexample for C3: a `/`-port with a `Ware` input does not fail by
returning an error as claimed; it hits `todo!()` and aborts (modelled as
the `panic` outcome, on which `isErr` is `false`). -/
theorem c3_counterexample :
    lowerInput "/x" (FormulaInput.ware "tar:abc") = PairOut.panic
    ∧ (lowerInput "/x" (FormulaInput.ware "tar:abc")).isErr = false := by
  exact ⟨by decide, by decide⟩

/-- Amended C3: lowering a formula input pair succeeds iff the port starts
with `$` with a non-empty remainder and the value is a literal, or the
port starts with `/` and the value is a read-only or read-write mount;
each other combination fails with its specific message, except that a
`/`-port with a `Ware` or `Overlay` input aborts with a `todo!()` panic
instead of returning an error. -/
theorem c3_amended (port : String) (input : FormulaInput) :
    ((lowerInput port input).isOk = true ↔
      ((∃ rest, port.data = '$' :: rest ∧ rest ≠ [] ∧ ∃ v, input = .literal v)
        ∨ ((∃ rest, port.data = '/' :: rest)
            ∧ ∃ h, (input = .mount (.readOnly h) ∨ input = .mount (.readWrite h)))))
    ∧ (∀ rest, port.data = '$' :: rest → rest ≠ [] → ∀ v, input = .literal v →
        lowerInput port input = .env (String.mk rest) v)
    ∧ (∀ rest, port.data = '/' :: rest → ∀ h,
        (input = .mount (.readOnly h) →
          lowerInput port input = .mnt port (MountSpec.new_bind h port true))
        ∧ (input = .mount (.readWrite h) →
          lowerInput port input = .mnt port (MountSpec.new_bind h port false)))
    ∧ ((∀ rest, port.data ≠ '$' :: rest) → (∀ rest, port.data ≠ '/' :: rest) →
        lowerInput port input
          = .err (.systemSetupCauseless ("invalid formula input " ++ sq ++ port ++ sq)))
    ∧ (port.data = ['$'] →
        lowerInput port input
          = .err (.systemSetupCauseless "environment variable with empty name"))
    ∧ (∀ rest, port.data = '$' :: rest → rest ≠ [] → (∀ v, input ≠ .literal v) →
        lowerInput port input
          = .err (.systemSetupCauseless
              ("value of environment variable " ++ sq ++ String.mk rest ++ sq
                ++ " has to be literal")))
    ∧ (∀ rest, port.data = '/' :: rest → ∀ v, input = .literal v →
        lowerInput port input
          = .err (.systemSetupCauseless
              ("formula input " ++ sq ++ port ++ sq ++ ": " ++ sq ++ "literal" ++ sq
                ++ " not supported, use " ++ sq ++ "ware" ++ sq ++ " or " ++ sq ++ "mount" ++ sq)))
    ∧ (∀ rest, port.data = '/' :: rest →
        ((∃ w, input = .ware w) ∨ (∃ h, input = .mount (.overlay h)) →
          lowerInput port input = .panic)) := by
  rcases hp : port.data with _ | ⟨c, rest⟩
  · cases input <;> simp [lowerInput, hp, PairOut.isOk]
  · by_cases hc : c = '$'
    · subst hc
      rcases rest with _ | ⟨c2, rest2⟩
      · cases input <;> simp [lowerInput, hp, PairOut.isOk, List.isEmpty]
      · cases input <;> simp [lowerInput, hp, PairOut.isOk, List.isEmpty]
    · by_cases hs : c = '/'
      · subst hs
        cases input with
        | ware w => simp [lowerInput, hp, PairOut.isOk, hc]
        | literal v => simp [lowerInput, hp, PairOut.isOk, hc]
        | mount m => cases m <;> simp [lowerInput, hp, PairOut.isOk, hc]
      · cases input <;> simp [lowerInput, hp, PairOut.isOk, hc, hs]

/-- Witness for the amended C3: a concrete environment pair and a concrete
read-only mount pair on each side of the success characterization. -/
theorem c3_witness :
    lowerInput "$HOME" (FormulaInput.literal "v")
      = PairOut.env (String.mk ['H', 'O', 'M', 'E']) "v"
    ∧ lowerInput "/m" (FormulaInput.mount (Mount.readOnly "/h"))
      = PairOut.mnt "/m" (MountSpec.new_bind "/h" "/m" true) := by
  constructor
  · exact (c3_amended "$HOME" (FormulaInput.literal "v")).2.1
      ['H', 'O', 'M', 'E'] (by decide) (by decide) "v" rfl
  · exact ((c3_amended "/m" (FormulaInput.mount (Mount.readOnly "/h"))).2.2.1
      ['m'] (by decide) "/h").1 rfl

/-! ## Claim C4: sub-plot steps -/

/-- Counterexample for C4: constructing the plot graph from a plot that
contains a sub-plot step does not complete; `PlotGraph::new` hits the
`todo!()` in its step match (plot.rs line 192) and aborts. -/
theorem c4_counterexample :
    plotGraphNew ⟨none, [("s", Step.plot)], []⟩ = none := by decide

theorem plotGraphFold_isSome :
    ∀ (steps : IMap Step) (st : IMap Step × IMap (List String) × IMap (List String)),
      (steps.foldlM plotGraphStep st).isSome = true ↔ ∀ e ∈ steps, e.2 ≠ Step.plot := by
  intro steps
  induction steps with
  | nil => intro st; simp
  | cons e rest ih =>
    intro st
    rcases e with ⟨name, step⟩
    cases step with
    | plot => simp [plotGraphStep]
    | protoformula pf =>
      simp only [List.foldlM_cons, plotGraphStep, Option.bind_eq_bind, Option.some_bind]
      rw [ih]
      simp

/-- Amended C4: `PlotGraph::new` completes exactly on plots without
sub-plot steps — a sub-plot step makes construction itself abort with a
`todo!()` panic (so the executor never reaches its own sub-plot rejection
in `run_step`, which would also panic). -/
theorem c4_amended :
    (∀ p : Plot, (plotGraphNew p).isSome = true ↔ ∀ e ∈ p.steps, e.2 ≠ Step.plot)
    ∧ (∀ (plot : Plot) (tempDir stepName : String),
        runStepFormula plot tempDir stepName Step.plot = .panic) := by
  constructor
  · intro p
    rw [plotGraphNew]
    rw [show ((p.steps.foldlM plotGraphStep ([], [], [])).map
        (fun s => (⟨s.1, s.2.1, s.2.2⟩ : PlotGraph))).isSome
      = (p.steps.foldlM plotGraphStep ([], [], [])).isSome from by
        cases p.steps.foldlM plotGraphStep ([], [], []) <;> rfl]
    exact plotGraphFold_isSome p.steps ([], [], [])
  · intro plot tempDir stepName
    rfl

/-- Witness for the amended C4: a plot with one protoformula step builds a
graph, and a sub-plot step panics in `run_step`. -/
theorem c4_witness :
    (plotGraphNew ⟨none, [("a", Step.protoformula ⟨none, [], Action.echo, []⟩)], []⟩).isSome = true
    ∧ runStepFormula ⟨none, [], []⟩ "/t" "s" Step.plot = .panic := by
  exact ⟨(c4_amended.1 _).mpr (by decide), c4_amended.2 ⟨none, [], []⟩ "/t" "s"⟩

/-! ## Claim C10: script mount silently replaces a user mount -/

/-- C10: a formula with a mount input on the port
`/.warpforge.container/script` and a `Script` action lowers successfully,
and the script bind mount replaces the user-supplied mount under the same
map key: the inputs loop first registers the user mount, and
`setup_script` later inserts under the identical key, so the final mount
for that sandbox target is the host script directory. -/
theorem c10_script_mount_overrides (img : Image) (host ersatzDir interpreter : String)
    (contents : List String) (network : Option Bool) :
    lowerInputs [(container_script_path, FormulaInput.mount (Mount.readOnly host))] [] []
      = .ok ([(container_script_path, MountSpec.new_bind host container_script_path true)], [])
    ∧ (∃ files,
        formulaRunLower ersatzDir false
          ⟨img, [(container_script_path, FormulaInput.mount (Mount.readOnly host))],
            Action.script interpreter contents network, []⟩
          = .ok ([(container_script_path,
                MountSpec.new_bind (ersatzDir ++ "/script") container_script_path false)],
              [], [interpreter, container_script_path ++ "/run"], files))
    ∧ imFind? [(container_script_path,
          MountSpec.new_bind (ersatzDir ++ "/script") container_script_path false)]
        container_script_path
      = some (MountSpec.new_bind (ersatzDir ++ "/script") container_script_path false) := by
  refine ⟨rfl, ⟨_, rfl⟩, imFind?_imInsert_self [] _ _⟩

/-! ## Claim C9: deterministic LIFO traversal -/

/-- C9: the ready-set traversal of the plot executor is a deterministic
function of the plot graph (two runs on equal graphs visit the steps and
emit the step log headers in the same order), and `next_steps` is popped
in stack order: with stack `s ++ [node]` the loop visits `node`, the most
recently pushed ready step, next. -/
theorem c9_deterministic_traversal :
    (∀ g1 g2 : PlotGraph, g1 = g2 →
      execOrder g1 = execOrder g2 ∧ stepLogHeaders g1 = stepLogHeaders g2)
    ∧ (∀ (children : IMap (List String)) (fuel : Nat) (order : List String)
        (parents : IMap (List String)) (stack : List String) (node : String),
        execLoop children (fuel + 1) order parents (stack ++ [node])
          = match relaxChildren false children node parents stack with
            | none => none
            | some st => execLoop children fuel (order ++ [node]) st.1 st.2) := by
  constructor
  · intro g1 g2 h
    cases h
    exact ⟨rfl, rfl⟩
  · intro children fuel order parents stack node
    conv_lhs => rw [execLoop]
    simp only [List.getLast?_concat, List.dropLast_concat]
    rcases hr : relaxChildren false children node parents stack with _ | st
    · rfl
    · cases st
      rfl

/-- Witness for C9 at a concrete graph and a concrete stack. -/
theorem c9_witness :
    (execOrder ⟨[("a", Step.protoformula ⟨none, [], Action.echo, []⟩)], [], []⟩
        = execOrder ⟨[("a", Step.protoformula ⟨none, [], Action.echo, []⟩)], [], []⟩
      ∧ stepLogHeaders ⟨[("a", Step.protoformula ⟨none, [], Action.echo, []⟩)], [], []⟩
        = stepLogHeaders ⟨[("a", Step.protoformula ⟨none, [], Action.echo, []⟩)], [], []⟩)
    ∧ execLoop [] 1 [] [] ([] ++ ["a"])
      = match relaxChildren false [] "a" [] [] with
        | none => none
        | some st => execLoop [] 0 ([] ++ ["a"]) st.1 st.2 := by
  exact ⟨c9_deterministic_traversal.1 _ _ rfl,
    c9_deterministic_traversal.2 [] 0 [] [] [] "a"⟩

/-! ## Claim C2: cycle validation -/

/-- C2 counterexample: on the plot whose steps `a` and `b` pipe from each
other while `c` pipes from `a`, `validate_no_cycles` reports the steps `a`,
`b` and `c`, yet `c` lies on no cycle and hence in no non-trivial strongly
connected component; and on the acyclic plot whose step `s` pipes from the
non-existent step `ghost`, `validate_no_cycles` rejects even though the
parents graph is acyclic. -/
theorem c2_counterexample :
    (∃ g, plotGraphNew ⟨none,
        [("a", Step.protoformula
           ⟨some ⟨"i", true⟩, [("/in", PlotInput.pipe ⟨"b", "out"⟩)], Action.echo, []⟩),
         ("b", Step.protoformula
           ⟨some ⟨"i", true⟩, [("/in", PlotInput.pipe ⟨"a", "out"⟩)], Action.echo, []⟩),
         ("c", Step.protoformula
           ⟨some ⟨"i", true⟩, [("/in", PlotInput.pipe ⟨"a", "out"⟩)], Action.echo, []⟩)], []⟩
        = some g
      ∧ validate_no_cycles g = .err (.systemSetupCauseless (cycleMsg ["a", "b", "c"]))
      ∧ ¬ onCycle g "c")
    ∧ (∃ g, plotGraphNew ⟨none,
        [("s", Step.protoformula
           ⟨some ⟨"i", true⟩, [("/in", PlotInput.pipe ⟨"ghost", "out"⟩)], Action.echo, []⟩)], []⟩
        = some g
      ∧ acyclicG g
      ∧ validate_no_cycles g ≠ .ok ()) := by
  constructor
  · refine ⟨⟨[("a", Step.protoformula
           ⟨some ⟨"i", true⟩, [("/in", PlotInput.pipe ⟨"b", "out"⟩)], Action.echo, []⟩),
         ("b", Step.protoformula
           ⟨some ⟨"i", true⟩, [("/in", PlotInput.pipe ⟨"a", "out"⟩)], Action.echo, []⟩),
         ("c", Step.protoformula
           ⟨some ⟨"i", true⟩, [("/in", PlotInput.pipe ⟨"a", "out"⟩)], Action.echo, []⟩)],
        [("a", ["b"]), ("b", ["a"]), ("c", ["a"])],
        [("b", ["a"]), ("a", ["b", "c"])]⟩, by decide, by decide, ?_⟩
    intro hc
    obtain ⟨b, hcb, -⟩ := Relation.TransGen.head'_iff.mp hc
    obtain ⟨e, he, -, hx⟩ := rel_elim hcb
    exact absurd ⟨e, he, hx⟩
      (by decide : ¬ ∃ e ∈ ([("a", ["b"]), ("b", ["a"]), ("c", ["a"])] : IMap (List String)),
        "c" ∈ e.2)
  · refine ⟨⟨[("s", Step.protoformula
           ⟨some ⟨"i", true⟩, [("/in", PlotInput.pipe ⟨"ghost", "out"⟩)], Action.echo, []⟩)],
        [("s", ["ghost"])], [("ghost", ["s"])]⟩, by decide, ?_, by decide⟩
    refine acyclic_of_rank (fun s => if s = "s" then 1 else 0) ?_
    intro x y h
    obtain ⟨e, he, hey, hx⟩ := rel_elim h
    simp at he
    subst he
    simp at hey hx
    subst hey
    subst hx
    decide

/-- C2 (amended): for a graph built by `PlotGraph::new` from a plot with
unique step names on which `validate_dependencies_exist` succeeds,
`validate_no_cycles` returns `Ok` when the dependency graph is acyclic, and
on a cyclic graph it returns the `SystemSetupCauseless` cycle error whose
reported step set is exactly the set of steps reachable through one or more
dependency edges from a vertex on a cycle: the vertices of non-trivial
strongly connected components together with every step transitively
depending on them (strictly more than the SCC vertices alone whenever a
step downstream of a cycle exists); without the dependency check a plot
with an acyclic graph can still be rejected (see the counterexample). -/
theorem c2_cycle_validation (p : Plot) (g : PlotGraph)
    (hg : plotGraphNew p = some g) (hk : (imKeys p.steps).Nodup)
    (hdeps : validate_dependencies_exist g = .ok ()) :
    (acyclicG g → validate_no_cycles g = .ok ())
    ∧ (¬ acyclicG g → ∃ names,
        validate_no_cycles g = .err (.systemSetupCauseless (cycleMsg names))
        ∧ ∀ c, (c ∈ names ↔ ∃ u, onCycle g u ∧ Relation.TransGen (rel g) u c)) := by
  have hWF := plotGraphNew_WF p g hg hk
  have hdeps2 : ∀ e ∈ g.children, e.1 ∈ imKeys g.nodes := by
    rw [validate_dependencies_exist, validateDepsGo_ok_iff] at hdeps
    intro e he
    have hc := hdeps e he
    rw [imContains] at hc
    exact (imFind?_isSome_iff g.nodes e.1).mp hc
  have hpar : ∀ c x, x ∈ parSet g c → x ∈ imKeys g.nodes := parent_in_nodes hWF hdeps2
  have hchar := not_sup_iff_cycle_ancestor hpar
  have hspec := validate_no_cycles_spec hWF
  constructor
  · intro hacyc
    refine hspec.1 ?_
    intro v hv
    by_contra hns
    obtain ⟨u, hcyc, -⟩ := (hchar v hv).mp hns
    exact hacyc u hcyc
  · intro hcyc
    rw [acyclicG] at hcyc
    push_neg at hcyc
    obtain ⟨u, hu⟩ := hcyc
    have hun : u ∈ imKeys g.nodes := by
      obtain ⟨b, hub, -⟩ := Relation.TransGen.head'_iff.mp hu
      exact hpar b u hub
    have hns : ¬ Sup g u := fun hs => not_sup_of_onCycle hs hu
    obtain ⟨names, heq, hiff⟩ := hspec.2 ⟨u, hun, hns⟩
    refine ⟨names, heq, fun c => ?_⟩
    rw [hiff c]
    constructor
    · rintro ⟨x, hx, hxs⟩
      obtain ⟨w, hwc, hwr⟩ := (hchar x (hpar c x hx)).mp hxs
      exact ⟨w, hwc, Relation.TransGen.tail'_iff.mpr ⟨x, hwr, hx⟩⟩
    · rintro ⟨w, hwc, hwt⟩
      obtain ⟨x, hwx, hxc⟩ := Relation.TransGen.tail'_iff.mp hwt
      refine ⟨x, hxc, ?_⟩
      rw [hchar x (hpar c x hxc)]
      exact ⟨w, hwc, hwx⟩

/-- C2 witness: the amended theorem at the linear three-step plot where `b`
pipes from `a` and `c` pipes from `b`, whose graph is acyclic and passes
`validate_no_cycles`. -/
theorem c2_witness :
    validate_no_cycles
      ⟨[("a", Step.protoformula ⟨some ⟨"i", true⟩, [], Action.echo, []⟩),
        ("b", Step.protoformula
          ⟨some ⟨"i", true⟩, [("/in", PlotInput.pipe ⟨"a", "out"⟩)], Action.echo, []⟩),
        ("c", Step.protoformula
          ⟨some ⟨"i", true⟩, [("/in", PlotInput.pipe ⟨"b", "out"⟩)], Action.echo, []⟩)],
       [("b", ["a"]), ("c", ["b"])], [("a", ["b"]), ("b", ["c"])]⟩ = .ok () := by
  refine (c2_cycle_validation
    ⟨none,
      [("a", Step.protoformula ⟨some ⟨"i", true⟩, [], Action.echo, []⟩),
       ("b", Step.protoformula
         ⟨some ⟨"i", true⟩, [("/in", PlotInput.pipe ⟨"a", "out"⟩)], Action.echo, []⟩),
       ("c", Step.protoformula
         ⟨some ⟨"i", true⟩, [("/in", PlotInput.pipe ⟨"b", "out"⟩)], Action.echo, []⟩)], []⟩
    ⟨[("a", Step.protoformula ⟨some ⟨"i", true⟩, [], Action.echo, []⟩),
      ("b", Step.protoformula
        ⟨some ⟨"i", true⟩, [("/in", PlotInput.pipe ⟨"a", "out"⟩)], Action.echo, []⟩),
      ("c", Step.protoformula
        ⟨some ⟨"i", true⟩, [("/in", PlotInput.pipe ⟨"b", "out"⟩)], Action.echo, []⟩)],
     [("b", ["a"]), ("c", ["b"])], [("a", ["b"]), ("b", ["c"])]⟩
    (by decide) (by decide) (by decide)).1 ?_
  refine acyclic_of_rank (fun s => if s = "b" then 1 else if s = "c" then 2 else 0) ?_
  intro x y h
  obtain ⟨e, he, hey, hx⟩ := rel_elim h
  simp at he
  rcases he with he | he
  · subst he
    simp at hey hx
    subst hey
    subst hx
    decide
  · subst he
    simp at hey hx
    subst hey
    subst hx
    decide

end Warpforge
